import Mathlib

/-!
# BeReal coffee-shop pipeline: a shallow embedding of `main.go`

The development has three layers, each translated from the Go source.

* **Domain** (`Beans`, `Grinder.Grind`, `Brewer.Brew`, `CoffeeShop.TakeOrder`,
  `CoffeeShop.ServeCoffee`): pure data and the order workflow.  `float32` quantities are
  rationals and the arithmetic on them (the reservoir, `Brew`) is exact; where `TakeOrder`
  turns an `int` product into a `float32`, the wrap-around and the rounding are modelled.
  Wall-clock fields (`startTime`, durations, `time.Sleep`) are left out.
* **Construction** (`NewWorker`, `NewWorkerPool`, `NewPipeline`): constructors run against an
  explicit `Runtime` that hands out channel handles (`make(chan ...)`) and records every
  `go` statement.
* **Execution** (`Worker.Work`, `WorkerPool.scheduleRoundRobin`,
  `WorkerPool.fastestAvailableWorker`, `WorkerPool.scheduleFastestAvailable`): every statement
  of a loop body is one atomic step of a labelled transition function; goroutines interleave
  by choosing the label.
-/

namespace BeReal

/-! ## Constants -/

/-- Grams of beans that go into one ounce of coffee. -/
def GramsBeansPerOunceCoffee : Int := 2

/-- Ounces of water per gram of beans (`0.5`). -/
def GramsBeansPerOunceWater : ℚ := 1 / 2

def PipelineInputBufferSize : Nat := 100
def PipelineOutputBufferSize : Nat := 100
def WorkerInputBufferSize : Nat := 10
def WorkerPoolOutputBufferSize : Nat := 100

/-! ## Beans and tasks -/

/-- The Go type is `type BeanState int`; the three named states are the `iota` constants. -/
abbrev BeanState := Int

def BeanStateUnground : BeanState := 0
def BeanStateGround : BeanState := 1
def BeanStateBrewed : BeanState := 2

/-- Contents of a `Beans` struct. -/
structure Beans where
  units : ℚ
  state : BeanState
  deriving DecidableEq, Repr

/-- A `*Beans`: the address of the struct together with its current contents.  A `Beans` value
is owned by one holder at a time, so the contents travel with the pointer. -/
structure BeansPtr where
  addr : Nat
  val : Beans
  deriving DecidableEq, Repr

structure Grinder where
  gramsPerSecond : Int
  deriving DecidableEq, Repr

structure Brewer where
  ouncesWaterPerSecond : Int
  deriving DecidableEq, Repr

/-- `Grinder.Grind`: after sleeping, sets `beans.state = BeanStateGround` in place and returns
the same pointer. -/
def Grinder.Grind (_g : Grinder) (beans : BeansPtr) : BeansPtr :=
  { beans with val := { beans.val with state := BeanStateGround } }

/-- `Brewer.Brew`: `waterUnits := beans.units * GramsBeansPerOunceWater`; after sleeping, stores
`waterUnits` and `BeanStateBrewed` in place and returns the same pointer. -/
def Brewer.Brew (_b : Brewer) (beans : BeansPtr) : BeansPtr :=
  let waterUnits := beans.val.units * GramsBeansPerOunceWater
  { beans with val := { units := waterUnits, state := BeanStateBrewed } }

/-- A `BeanTask` value.  The only task values the program ever builds are the method values
`grinder.Grind` and `brewer.Brew`. -/
inductive BeanTask where
  | grind (g : Grinder)
  | brew (b : Brewer)
  deriving DecidableEq, Repr

/-- Calling a task value. -/
def BeanTask.call : BeanTask → BeansPtr → BeansPtr
  | .grind g, beans => g.Grind beans
  | .brew b, beans => b.Brew beans

/-! ## Construction: channels, workers, pools, pipeline -/

/-- The three named values of `SchedulingStrategy`. -/
inductive SchedulingStrategy where
  | PushRoundRobin
  | PushFastestAvailable
  | Pull
  deriving DecidableEq, Repr

/-- `SchedulingStrategy.String`. -/
def SchedulingStrategy.String : SchedulingStrategy → String
  | .PushRoundRobin => "push-round-robin"
  | .PushFastestAvailable => "push-fastest"
  | .Pull => "pull"

/-- A channel handle (`chan *Beans`): the index of the `make` call that created it. -/
abbrev Chan := Nat

/-- The Go struct `IO`: an input and an output channel handle. -/
structure IOChans where
  input : Chan
  output : Chan
  deriving DecidableEq, Repr

/-- A `Pipeline` is just its embedded `IO`. -/
structure Pipeline where
  io : IOChans
  deriving DecidableEq, Repr

/-- A `Worker`; `busy` is the `atomic.Bool`, whose zero value is `false`. -/
structure Worker where
  io : IOChans
  id : String
  busy : Bool
  task : BeanTask
  throughput : Int
  deriving DecidableEq, Repr

/-- `NewWorker`: fills in the four given fields, `busy` keeps its zero value.  Nothing is
checked. -/
def NewWorker (id : String) (io : IOChans) (task : BeanTask) (throughput : Int) : Worker :=
  { io := io, id := id, busy := false, task := task, throughput := throughput }

structure WorkerPool where
  io : IOChans
  id : String
  workers : List Worker
  strategy : SchedulingStrategy
  deriving DecidableEq, Repr

/-- What a `go` statement starts. -/
inductive Goroutine where
  | work (w : Worker)
  | schedule (wp : WorkerPool)
  deriving DecidableEq, Repr

/-- The part of the Go runtime the constructors touch: the channels made so far (their
capacities, in order of creation) and the goroutines started so far (in order of the `go`
statements). -/
structure Runtime where
  chans : List Nat
  spawned : List Goroutine
  deriving DecidableEq, Repr

/-- The state `make(chan *Beans, cap)` is evaluated in and leaves: a fresh handle. -/
def Runtime.makeChan (rt : Runtime) (cap : Nat) : Chan × Runtime :=
  (rt.chans.length, { rt with chans := rt.chans ++ [cap] })

/-- The statement `go f()`. -/
def Runtime.go (rt : Runtime) (g : Goroutine) : Runtime :=
  { rt with spawned := rt.spawned ++ [g] }

/-- The `for i, task := range workerTasks` loop of `NewWorkerPool`, from iteration `i` on, with
the `workers` slice built so far.  `workerThroughputs[i]` out of range is a run-time panic
(`none`). -/
def newWorkers (id : String) (io : IOChans) (workerThroughputs : List Int)
    (strategy : SchedulingStrategy) :
    List BeanTask → Nat → List Worker → Runtime → Option (List Worker × Runtime)
  | [], _, workers, rt => some (workers, rt)
  | task :: rest, i, workers, rt =>
    let (workerInput, rt) :=
      if strategy = SchedulingStrategy.Pull then (io.input, rt)
      else rt.makeChan WorkerInputBufferSize
    match workerThroughputs[i]? with
    | none => none
    | some throughput =>
      let worker := NewWorker (id ++ "[" ++ toString i ++ "]")
        { input := workerInput, output := io.output } task throughput
      newWorkers id io workerThroughputs strategy rest (i + 1) (workers ++ [worker])
        (rt.go (Goroutine.work worker))

/-- `NewWorkerPool`.  Nothing is checked; the only failure is the index panic of the loop. -/
def NewWorkerPool (id : String) (io : IOChans) (workerTasks : List BeanTask)
    (workerThroughputs : List Int) (strategy : SchedulingStrategy) (rt : Runtime) :
    Option (WorkerPool × Runtime) :=
  match newWorkers id io workerThroughputs strategy workerTasks 0 [] rt with
  | none => none
  | some (workers, rt) =>
    some ({ io := io, id := id, workers := workers, strategy := strategy }, rt)

/-- Everything `NewPipeline` builds: the pipeline it returns and its two local pools. -/
structure PipelineStages where
  pipeline : Pipeline
  grinderPool : WorkerPool
  brewerPool : WorkerPool
  deriving DecidableEq, Repr

/-- The body of `NewPipeline`, keeping the two local pools next to the returned pipeline. -/
def newPipelineStages (id : String) (grinders : List Grinder) (brewers : List Brewer)
    (strategy : SchedulingStrategy) (rt : Runtime) : Option (PipelineStages × Runtime) :=
  let (pipelineInput, rt) := rt.makeChan PipelineInputBufferSize
  let (pipelineOutput, rt) := rt.makeChan PipelineOutputBufferSize
  let pipelineIO : IOChans := { input := pipelineInput, output := pipelineOutput }
  let grinderTasks := grinders.map BeanTask.grind
  let grinderThroughputs := grinders.map Grinder.gramsPerSecond
  let (grinderOutput, rt) := rt.makeChan WorkerPoolOutputBufferSize
  match NewWorkerPool (id ++ ":grinder") { input := pipelineIO.input, output := grinderOutput }
      grinderTasks grinderThroughputs strategy rt with
  | none => none
  | some (grinderPool, rt) =>
    let rt := rt.go (Goroutine.schedule grinderPool)
    let brewerTasks := brewers.map BeanTask.brew
    let brewerThroughputs := brewers.map Brewer.ouncesWaterPerSecond
    match NewWorkerPool (id ++ ":brewer")
        { input := grinderPool.io.output, output := pipelineIO.output }
        brewerTasks brewerThroughputs strategy rt with
    | none => none
    | some (brewerPool, rt) =>
      let rt := rt.go (Goroutine.schedule brewerPool)
      some ({ pipeline := { io := pipelineIO }, grinderPool := grinderPool,
              brewerPool := brewerPool }, rt)

/-- `NewPipeline`: returns `&Pipeline{IO: pipelineIO}`. -/
def NewPipeline (id : String) (grinders : List Grinder) (brewers : List Brewer)
    (strategy : SchedulingStrategy) (rt : Runtime) : Option (Pipeline × Runtime) :=
  (newPipelineStages id grinders brewers strategy rt).map fun r => (r.1.pipeline, r.2)

/-! ## Order workflow -/

/-- An `Order` (the wall-clock `startTime` is left out). -/
structure Order where
  ouncesOfCoffeeWanted : Int
  deriving DecidableEq, Repr

structure Coffee where
  amountOunces : ℚ
  deriving DecidableEq, Repr

/-- The counters of `Metrics` (the recorded durations are left out). -/
structure Metrics where
  ordersTaken : Int
  ordersServed : Int
  ozCoffeeServed : ℚ
  deriving DecidableEq, Repr

/-- A `CoffeeShop`.  Its pipeline is represented by what travels over the pipeline's two
channels: `TakeOrder` returns the item it sends, `ServeCoffee` takes the items it will receive. -/
structure CoffeeShop where
  id : String
  pipeline : Pipeline
  readyCoffee : Coffee
  orders : List Order
  metrics : Metrics
  deriving DecidableEq, Repr

/-- `NewCoffeeShop`: a new pipeline, an empty reservoir (`&Coffee{}`), no orders, zeroed
metrics. -/
def NewCoffeeShop (grinders : List Grinder) (brewers : List Brewer)
    (strategy : SchedulingStrategy) (rt : Runtime) : Option (CoffeeShop × Runtime) :=
  let id := "coffee-shop-" ++ strategy.String
  (NewPipeline id grinders brewers strategy rt).map fun r =>
    ({ id := id, pipeline := r.1, readyCoffee := { amountOunces := 0 }, orders := [],
       metrics := { ordersTaken := 0, ordersServed := 0, ozCoffeeServed := 0 } }, r.2)

/-- Go's `int(x)` on a float: truncation toward zero. -/
def truncToInt (x : ℚ) : Int :=
  if 0 ≤ x then ⌊x⌋ else ⌈x⌉

/-- Go's `int` arithmetic (64-bit): results wrap around modulo `2^64` into
`[-2^63, 2^63)`. -/
def wrapInt (n : Int) : Int :=
  (n + 2 ^ 63) % 2 ^ 64 - 2 ^ 63

/-- Go's `float32(n)` for an `int`: exact below `2^24` in magnitude; above, the magnitude is
rounded to 24 significant bits, to the nearest representable value, ties to the even one. -/
def float32OfInt (n : Int) : ℚ :=
  let m := n.natAbs
  if m < 2 ^ 24 then (n : ℚ)
  else
    let ulp := 2 ^ (Nat.log2 m - 23)
    let q := m / ulp
    let r := m % ulp
    let q :=
      if 2 * r < ulp then q
      else if ulp < 2 * r then q + 1
      else if q % 2 = 0 then q
      else q + 1
    if 0 ≤ n then ((q * ulp : Nat) : ℚ) else -((q * ulp : Nat) : ℚ)

/-- `CoffeeShop.TakeOrder`: counts the order, appends it to `cs.orders` and sends freshly
allocated unground beans (at address `addr`) of
`float32(GramsBeansPerOunceCoffee * order.ouncesOfCoffeeWanted)` units to the pipeline input.
Returns the updated shop and the item sent; the send itself is the `push` step of the running
pipeline. -/
def CoffeeShop.TakeOrder (cs : CoffeeShop) (order : Order) (addr : Nat) :
    CoffeeShop × BeansPtr :=
  let cs1 := { cs with metrics := { cs.metrics with ordersTaken := cs.metrics.ordersTaken + 1 } }
  let cs2 := { cs1 with orders := cs1.orders ++ [order] }
  let ungroundBeans : BeansPtr :=
    { addr := addr
      val := { units := float32OfInt (wrapInt (GramsBeansPerOunceCoffee * order.ouncesOfCoffeeWanted))
               state := BeanStateUnground } }
  (cs2, ungroundBeans)

/-- How the inner `for` of `ServeCoffee` ends for one order: with enough coffee in the
reservoir (and the items not yet received), or blocked forever on a receive, the reservoir
holding what was added up to then. -/
inductive Awaited where
  | enough (amountOunces : ℚ) (rest : List BeansPtr)
  | starved (amountOunces : ℚ)
  deriving DecidableEq, Repr

/-- The inner `for` of `ServeCoffee` for one order: receive an item, add its units to the
reservoir, leave the loop once `order.ouncesOfCoffeeWanted <= int(reservoir)`.  `output` is
everything the pipeline output will ever deliver; a receive on an exhausted output blocks
forever. -/
def awaitCoffee (wanted : Int) : ℚ → List BeansPtr → Awaited
  | amountOunces, [] => .starved amountOunces
  | amountOunces, beans :: output =>
    let amountOunces := amountOunces + beans.val.units
    if wanted ≤ truncToInt amountOunces then .enough amountOunces output
    else awaitCoffee wanted amountOunces output

/-- How a call of `ServeCoffee` ends: it returns (with the items it did not receive), or it
blocks forever on a receive (the state it is stuck in is reported). -/
inductive Served where
  | returned (cs : CoffeeShop) (rest : List BeansPtr)
  | blocked (cs : CoffeeShop)
  deriving DecidableEq, Repr

/-- The outer `for i, order := range cs.orders` of `ServeCoffee`, over the orders still to
serve.  The reservoir is kept in exact arithmetic. -/
def serveOrders : List Order → CoffeeShop → List BeansPtr → Served
  | [], cs, output => .returned cs output
  | order :: later, cs, output =>
    match awaitCoffee order.ouncesOfCoffeeWanted cs.readyCoffee.amountOunces output with
    | .starved amountOunces =>
      .blocked { cs with readyCoffee := { amountOunces := amountOunces } }
    | .enough amountOunces output =>
      let cs :=
        { cs with
          readyCoffee := { amountOunces := amountOunces - (order.ouncesOfCoffeeWanted : ℚ) }
          metrics :=
            { cs.metrics with
              ordersServed := cs.metrics.ordersServed + 1
              ozCoffeeServed := cs.metrics.ozCoffeeServed + (order.ouncesOfCoffeeWanted : ℚ) } }
      serveOrders later cs output

/-- `CoffeeShop.ServeCoffee`. -/
def CoffeeShop.ServeCoffee (cs : CoffeeShop) (output : List BeansPtr) : Served :=
  serveOrders cs.orders cs output

/-- The coffee shops the program can hold when `ServeCoffee` is called: built by
`NewCoffeeShop`, then changed only by `TakeOrder` and by earlier calls of `ServeCoffee` that
returned, the pipeline delivering items with non-negative units. -/
inductive CoffeeShop.Reachable : CoffeeShop → Prop where
  | new (grinders : List Grinder) (brewers : List Brewer) (strategy : SchedulingStrategy)
      (rt rt1 : Runtime) (cs : CoffeeShop)
      (h : NewCoffeeShop grinders brewers strategy rt = some (cs, rt1)) : Reachable cs
  | take (cs : CoffeeShop) (order : Order) (addr : Nat) (h : Reachable cs) :
      Reachable (cs.TakeOrder order addr).1
  | serve (cs cs1 : CoffeeShop) (output rest : List BeansPtr) (h : Reachable cs)
      (hunits : ∀ b ∈ output, 0 ≤ b.val.units)
      (hret : cs.ServeCoffee output = Served.returned cs1 rest) : Reachable cs1

/-! ## Execution: channels, the worker loop, the scheduler loops -/

/-- A buffered channel of `*Beans`: its capacity and its buffered items, oldest first. -/
structure Channel where
  cap : Nat
  buf : List BeansPtr
  deriving DecidableEq, Repr

/-- An empty channel, as `make` returns it. -/
def Channel.make (cap : Nat) : Channel := { cap := cap, buf := [] }

/-- The statement `c <- beans`: blocks (`none`) while the buffer is full. -/
def Channel.send (c : Channel) (beans : BeansPtr) : Option Channel :=
  if c.buf.length < c.cap then some { c with buf := c.buf ++ [beans] } else none

/-- The expression `<-c`: blocks (`none`) while the buffer is empty. -/
def Channel.recv (c : Channel) : Option (BeansPtr × Channel) :=
  match c.buf with
  | [] => none
  | beans :: rest => some (beans, { c with buf := rest })

/-- The available workers seen by one scan of `wp.workers` (`!worker.busy.Load()`), each with
its position in the pool, which stands for the `*Worker` pointer. -/
def availableFrom : Nat → List Worker → List (Nat × Worker)
  | _, [] => []
  | i, worker :: rest =>
    if !worker.busy then (i, worker) :: availableFrom (i + 1) rest
    else availableFrom (i + 1) rest

/-- The slice `availableWorkers` built by the first inner loop of `fastestAvailableWorker`. -/
def availableWorkers (workers : List Worker) : List (Nat × Worker) :=
  availableFrom 0 workers

/-- The second inner loop of `fastestAvailableWorker`, with the current values of
`fastestWorker` (`none` is `nil`) and `fastestThroughput`. -/
def fastestLoop : List (Nat × Worker) → Option Nat → Int → Option Nat
  | [], fastestWorker, _ => fastestWorker
  | (i, worker) :: rest, fastestWorker, fastestThroughput =>
    if worker.throughput > fastestThroughput then fastestLoop rest (some i) worker.throughput
    else fastestLoop rest fastestWorker fastestThroughput

/-- One iteration of the outer `for` of `fastestAvailableWorker`: `none` is "sleep and
`continue`", `some r` is `return r`, where `r = none` is the `nil` worker. -/
def fastestAvailableWorkerPoll (workers : List Worker) : Option (Option Nat) :=
  let availableWorkers := availableWorkers workers
  if availableWorkers.length = 0 then none
  else some (fastestLoop availableWorkers none 0)

/-- `WorkerPool.fastestAvailableWorker`, given the pool as it is seen by the successive polls
(other goroutines change `busy` between polls).  Returns the worker and how often it slept;
`none` when it is still polling after the last given poll. -/
def fastestAvailableWorker : List (List Worker) → Option (Option Nat × Nat)
  | [] => none
  | workers :: later =>
    match fastestAvailableWorkerPoll workers with
    | some r => some (r, 0)
    | none => (fastestAvailableWorker later).map fun r => (r.1, r.2 + 1)

/-- Where a `Worker.Work` goroutine stands: before the receive, before the task call, before
the send, before `w.busy.Store(false)`. -/
inductive WorkPc where
  | recv
  | call (beans : BeansPtr)
  | send (beans : BeansPtr)
  | clear
  deriving DecidableEq, Repr

/-- A worker at run time: the struct (with its `busy` flag), its private input channel (made
and used under the push strategies only) and its goroutine's position. -/
structure WorkerSt where
  worker : Worker
  queue : Channel
  pc : WorkPc
  deriving DecidableEq, Repr

/-- Where a `WorkerPool.Schedule` goroutine stands: before the receive from `wp.input`, before
choosing the worker, before `worker.busy.Store(true)` (`none` is the `nil` worker), before the
send to `worker.input`, before the cursor update; `crashed` after a run-time panic, `done`
after `Schedule` returned. -/
inductive SchedPc where
  | recv
  | pick (beans : BeansPtr)
  | mark (beans : BeansPtr) (worker : Option Nat)
  | send (beans : BeansPtr) (worker : Nat)
  | advance
  | crashed
  | done
  deriving DecidableEq, Repr

/-- A pool at run time.  `taken` and `handed` are history variables: the items the scheduler
received from `wp.input`, and its sends `(worker position, item)`, both oldest first. -/
structure PoolSt where
  strategy : SchedulingStrategy
  workers : List WorkerSt
  cursor : Nat
  pc : SchedPc
  taken : List BeansPtr
  handed : List (Nat × BeansPtr)
  deriving DecidableEq, Repr

/-- The pool right after `NewWorkerPool` and `go wp.Schedule()`: workers before their first
receive, private channels empty, `cursor := 0`; under the pull strategy `Schedule` returns at
once. -/
def PoolSt.init (wp : WorkerPool) : PoolSt :=
  { strategy := wp.strategy
    workers := wp.workers.map fun w =>
      { worker := w, queue := Channel.make WorkerInputBufferSize, pc := WorkPc.recv }
    cursor := 0
    pc := if wp.strategy = SchedulingStrategy.Pull then SchedPc.done else SchedPc.recv
    taken := []
    handed := [] }

/-- The `Worker` structs of the pool, as `wp.workers` lists them. -/
def PoolSt.structs (p : PoolSt) : List Worker := p.workers.map WorkerSt.worker

/-- One statement of the scheduler loop (`scheduleRoundRobin` or `scheduleFastestAvailable`),
on the pool's input channel.  `none`: the goroutine is blocked or has ended. -/
def PoolSt.schedStep (p : PoolSt) (input : Channel) : Option (Channel × PoolSt) :=
  match p.pc with
  | .recv =>
    match input.recv with
    | none => none
    | some (beans, input) =>
      some (input, { p with pc := .pick beans, taken := p.taken ++ [beans] })
  | .pick beans =>
    match p.strategy with
    | .PushRoundRobin =>
      if p.cursor < p.workers.length then some (input, { p with pc := .mark beans (some p.cursor) })
      else some (input, { p with pc := .crashed })
    | .PushFastestAvailable =>
      match fastestAvailableWorkerPoll p.structs with
      | none => some (input, p)
      | some worker => some (input, { p with pc := .mark beans worker })
    | .Pull => none
  | .mark _ none => some (input, { p with pc := .crashed })
  | .mark beans (some i) =>
    match p.workers[i]? with
    | none => none
    | some w =>
      some (input, { p with
        workers := p.workers.set i { w with worker := { w.worker with busy := true } }
        pc := .send beans i })
  | .send beans i =>
    match p.workers[i]? with
    | none => none
    | some w =>
      match w.queue.send beans with
      | none => none
      | some queue =>
        some (input, { p with
          workers := p.workers.set i { w with queue := queue }
          handed := p.handed ++ [(i, beans)]
          pc := if p.strategy = SchedulingStrategy.PushRoundRobin then .advance else .recv })
  | .advance => some (input, { p with cursor := (p.cursor + 1) % p.workers.length, pc := .recv })
  | .crashed => none
  | .done => none

/-- One statement of the `Work` loop of worker `i`, on the pool's input and output channels.
Under the pull strategy the worker's input is the pool's input, otherwise its private channel.
`none`: the goroutine is blocked. -/
def PoolSt.workStep (p : PoolSt) (i : Nat) (input output : Channel) :
    Option (Channel × Channel × PoolSt) :=
  match p.workers[i]? with
  | none => none
  | some w =>
    match w.pc with
    | .recv =>
      if p.strategy = SchedulingStrategy.Pull then
        match input.recv with
        | none => none
        | some (beans, input) =>
          some (input, output, { p with workers := p.workers.set i { w with pc := .call beans } })
      else
        match w.queue.recv with
        | none => none
        | some (beans, queue) =>
          some (input, output,
            { p with workers := p.workers.set i { w with queue := queue, pc := .call beans } })
    | .call beans =>
      some (input, output,
        { p with workers := p.workers.set i { w with pc := .send (w.worker.task.call beans) } })
    | .send beans =>
      match output.send beans with
      | none => none
      | some output =>
        some (input, output, { p with workers := p.workers.set i { w with pc := .clear } })
    | .clear =>
      some (input, output,
        { p with workers :=
            p.workers.set i { w with worker := { w.worker with busy := false }, pc := .recv } })

/-- A pool with the two channels of its `IO`. -/
structure PoolSys where
  input : Channel
  output : Channel
  pool : PoolSt
  deriving DecidableEq, Repr

/-- The atomic steps of a running pool: the pool's user sends an item to its input or receives
one from its output; the scheduler or worker `i` executes its next statement. -/
inductive PoolAct where
  | push (beans : BeansPtr)
  | pop
  | sched
  | work (i : Nat)
  deriving DecidableEq, Repr

/-- A pool on freshly made channels. -/
def PoolSys.init (wp : WorkerPool) (inputCap outputCap : Nat) : PoolSys :=
  { input := Channel.make inputCap, output := Channel.make outputCap, pool := PoolSt.init wp }

/-- One atomic step.  `none`: the step's goroutine is blocked; after a panic the program is
gone and nothing steps. -/
def PoolSys.step (s : PoolSys) (a : PoolAct) : Option PoolSys :=
  if s.pool.pc = SchedPc.crashed then none
  else
    match a with
    | .push beans => (s.input.send beans).map fun input => { s with input := input }
    | .pop => s.output.recv.map fun r => { s with output := r.2 }
    | .sched => (s.pool.schedStep s.input).map fun r => { s with input := r.1, pool := r.2 }
    | .work i =>
      (s.pool.workStep i s.input s.output).map fun r =>
        { input := r.1, output := r.2.1, pool := r.2.2 }

/-- Running a schedule (a list of steps), if every step of it can be taken. -/
def PoolSys.run (s : PoolSys) : List PoolAct → Option PoolSys
  | [] => some s
  | a :: rest =>
    match s.step a with
    | none => none
    | some s1 => s1.run rest

/-- The states some schedule leads to. -/
def PoolSys.Reachable (init s : PoolSys) : Prop := ∃ acts, init.run acts = some s

/-- A running pipeline: its three channels (`mid` is the grinder pool's output and the brewer
pool's input) and its two pools.  `pushed` and `popped` are history variables: the items sent
to the pipeline input and received from the pipeline output, oldest first. -/
structure PipeSt where
  input : Channel
  mid : Channel
  output : Channel
  grinders : PoolSt
  brewers : PoolSt
  pushed : List BeansPtr
  popped : List BeansPtr
  deriving DecidableEq, Repr

/-- The atomic steps of a running pipeline: `TakeOrder` sends newly allocated beans,
`ServeCoffee` receives an item, a scheduler or a worker executes its next statement. -/
inductive PipeAct where
  | push (beans : BeansPtr)
  | pop
  | grindSched
  | grindWork (i : Nat)
  | brewSched
  | brewWork (i : Nat)
  deriving DecidableEq, Repr

/-- The pipeline right after `NewPipeline`. -/
def PipeSt.init (st : PipelineStages) : PipeSt :=
  { input := Channel.make PipelineInputBufferSize
    mid := Channel.make WorkerPoolOutputBufferSize
    output := Channel.make PipelineOutputBufferSize
    grinders := PoolSt.init st.grinderPool
    brewers := PoolSt.init st.brewerPool
    pushed := []
    popped := [] }

/-- One atomic step.  The beans sent by `push` are a new allocation, so their address is none
of those sent before.  After a panic in either scheduler nothing steps. -/
def PipeSt.step (s : PipeSt) (a : PipeAct) : Option PipeSt :=
  if s.grinders.pc = SchedPc.crashed ∨ s.brewers.pc = SchedPc.crashed then none
  else
    match a with
    | .push beans =>
      if beans.addr ∈ s.pushed.map BeansPtr.addr then none
      else (s.input.send beans).map fun input =>
        { s with input := input, pushed := s.pushed ++ [beans] }
    | .pop => s.output.recv.map fun r => { s with output := r.2, popped := s.popped ++ [r.1] }
    | .grindSched =>
      (s.grinders.schedStep s.input).map fun r => { s with input := r.1, grinders := r.2 }
    | .grindWork i =>
      (s.grinders.workStep i s.input s.mid).map fun r =>
        { s with input := r.1, mid := r.2.1, grinders := r.2.2 }
    | .brewSched =>
      (s.brewers.schedStep s.mid).map fun r => { s with mid := r.1, brewers := r.2 }
    | .brewWork i =>
      (s.brewers.workStep i s.mid s.output).map fun r =>
        { s with mid := r.1, output := r.2.1, brewers := r.2.2 }

/-- Running a schedule. -/
def PipeSt.run (s : PipeSt) : List PipeAct → Option PipeSt
  | [] => some s
  | a :: rest =>
    match s.step a with
    | none => none
    | some s1 => s1.run rest

/-- The states some schedule leads to. -/
def PipeSt.Reachable (init s : PipeSt) : Prop := ∃ acts, init.run acts = some s

/-- The addresses a worker holds: those buffered in its private channel and the one its
goroutine has received and not yet sent on. -/
def WorkerSt.held (w : WorkerSt) : List Nat :=
  w.queue.buf.map BeansPtr.addr ++
    match w.pc with
    | .call beans => [beans.addr]
    | .send beans => [beans.addr]
    | _ => []

/-- The addresses a pool holds outside its input and output channels: the one its scheduler
has received and not yet sent on, and those of its workers. -/
def PoolSt.held (p : PoolSt) : List Nat :=
  (match p.pc with
    | .pick beans => [beans.addr]
    | .mark beans _ => [beans.addr]
    | .send beans _ => [beans.addr]
    | _ => []) ++ (p.workers.map WorkerSt.held).flatten

/-- Every place an item can be in a pipeline, as the list of the addresses found there: the
three channels, then what the two pools hold. -/
def PipeSt.places (s : PipeSt) : List Nat :=
  s.input.buf.map BeansPtr.addr ++ s.mid.buf.map BeansPtr.addr ++
    s.output.buf.map BeansPtr.addr ++ s.grinders.held ++ s.brewers.held

/-! ## Concrete inputs used by the evaluation theorems -/

/-- The runtime before anything was made or started. -/
def emptyRuntime : Runtime := { chans := [], spawned := [] }

/-- A pull-strategy shop with one grinder and one brewer, as `NewCoffeeShop` returns it. -/
def pullShop : CoffeeShop :=
  { id := "coffee-shop-pull"
    pipeline := { io := { input := 0, output := 1 } }
    readyCoffee := { amountOunces := 0 }
    orders := []
    metrics := { ordersTaken := 0, ordersServed := 0, ozCoffeeServed := 0 } }

/-- The shop `pullShop` after taking a 10 oz order and then a 5 oz order. -/
def twoOrderShop : CoffeeShop :=
  ((pullShop.TakeOrder { ouncesOfCoffeeWanted := 10 } 0).1.TakeOrder
    { ouncesOfCoffeeWanted := 5 } 1).1

/-- The item `TakeOrder` sends for `order`, after a grinder and a brewer have processed it. -/
def brewedFor (order : Order) (addr : Nat) : BeansPtr :=
  (Brewer.Brew { ouncesWaterPerSecond := 100 }
    (Grinder.Grind { gramsPerSecond := 5 } (pullShop.TakeOrder order addr).2))

/-- The runtime after the two channels of a pool's `IO` were made. -/
def poolRuntime : Runtime := { chans := [100, 100], spawned := [] }

/-- A push-strategy pool of two grinders, of throughput 5 and 10, as `NewWorkerPool` returns
it on `poolRuntime`. -/
def pushPool (strategy : SchedulingStrategy) : WorkerPool :=
  { io := { input := 0, output := 1 }
    id := "pool"
    workers :=
      [NewWorker "pool[0]" { input := 2, output := 1 } (BeanTask.grind { gramsPerSecond := 5 }) 5,
       NewWorker "pool[1]" { input := 3, output := 1 } (BeanTask.grind { gramsPerSecond := 10 }) 10]
    strategy := strategy }

/-- Unground beans of 24 g at address `addr`. -/
def rawBeans (addr : Nat) : BeansPtr :=
  { addr := addr, val := { units := 24, state := BeanStateUnground } }

/-- A schedule of the round-robin pool: three items arrive and are handed out in turn (five
scheduler statements each), then worker 0 processes its first item to the end. -/
def roundRobinSchedule : List PoolAct :=
  [.push (rawBeans 0), .push (rawBeans 1), .push (rawBeans 2)] ++
    List.replicate 15 PoolAct.sched ++ List.replicate 4 (PoolAct.work 0)

/-- The state `roundRobinSchedule` leads to. -/
def roundRobinState : PoolSys :=
  ((PoolSys.init (pushPool .PushRoundRobin) 100 100).run roundRobinSchedule).getD
    (PoolSys.init (pushPool .PushRoundRobin) 100 100)

/-- A schedule of the fastest-available pool: one item arrives, the scheduler hands it to
worker 1, which receives it, grinds it and sends it on (but has not yet cleared its flag). -/
def fastestSchedule : List PoolAct :=
  [.push (rawBeans 0)] ++ List.replicate 4 PoolAct.sched ++ List.replicate 3 (PoolAct.work 1)

/-- The state `fastestSchedule` leads to. -/
def fastestState : PoolSys :=
  ((PoolSys.init (pushPool .PushFastestAvailable) 100 100).run fastestSchedule).getD
    (PoolSys.init (pushPool .PushFastestAvailable) 100 100)

/-- The stages `NewPipeline` builds for one grinder and one brewer under the fastest-available
strategy, on the empty runtime. -/
def fastestStages : PipelineStages :=
  { pipeline := { io := { input := 0, output := 1 } }
    grinderPool :=
      { io := { input := 0, output := 2 }
        id := "shop:grinder"
        workers := [NewWorker "shop:grinder[0]" { input := 3, output := 2 }
          (BeanTask.grind { gramsPerSecond := 5 }) 5]
        strategy := SchedulingStrategy.PushFastestAvailable }
    brewerPool :=
      { io := { input := 2, output := 1 }
        id := "shop:brewer"
        workers := [NewWorker "shop:brewer[0]" { input := 4, output := 1 }
          (BeanTask.brew { ouncesWaterPerSecond := 100 }) 100]
        strategy := SchedulingStrategy.PushFastestAvailable } }

/-- A schedule of that pipeline: two items are sent in; the first is ground, brewed and
received from the output, the second waits in the pipeline input. -/
def pipelineSchedule : List PipeAct :=
  [.push (rawBeans 0), .push (rawBeans 1)] ++ List.replicate 4 PipeAct.grindSched ++
    List.replicate 4 (PipeAct.grindWork 0) ++ List.replicate 4 PipeAct.brewSched ++
    List.replicate 4 (PipeAct.brewWork 0) ++ [.pop]

/-- The state `pipelineSchedule` leads to. -/
def pipelineState : PipeSt :=
  ((PipeSt.init fastestStages).run pipelineSchedule).getD (PipeSt.init fastestStages)

/-- A pool seen with an idle worker of throughput 0 and a busy worker of throughput 7. -/
def stalledWorkers : List Worker :=
  [NewWorker "pool[0]" { input := 2, output := 1 } (BeanTask.grind { gramsPerSecond := 0 }) 0,
   { NewWorker "pool[1]" { input := 3, output := 1 } (BeanTask.grind { gramsPerSecond := 7 }) 7
     with busy := true }]

/-! ## Invariants of the running pool -/

/-- The invariant of a running round-robin pool of `n` workers: the cursor stays below `n`;
the `i`-th send went to worker `i % n` and carried the `i`-th item taken; and the scheduler's
position matches the two logs (it holds the one item taken and not yet handed on, for worker
`cursor`).  A round-robin scheduler over at least one worker neither panics nor returns. -/
def RoundRobinInv (n : Nat) (p : PoolSt) : Prop :=
  p.strategy = SchedulingStrategy.PushRoundRobin ∧ p.workers.length = n ∧ p.cursor < n ∧
  (∀ i w b, p.handed[i]? = some (w, b) → w = i % n ∧ p.taken[i]? = some b) ∧
  match p.pc with
  | .recv => p.handed.length = p.taken.length ∧ p.cursor = p.handed.length % n
  | .pick b =>
    p.taken.length = p.handed.length + 1 ∧ p.taken[p.handed.length]? = some b ∧
      p.cursor = p.handed.length % n
  | .mark b r =>
    p.taken.length = p.handed.length + 1 ∧ p.taken[p.handed.length]? = some b ∧
      p.cursor = p.handed.length % n ∧ r = some p.cursor
  | .send b i =>
    p.taken.length = p.handed.length + 1 ∧ p.taken[p.handed.length]? = some b ∧
      p.cursor = p.handed.length % n ∧ i = p.cursor
  | .advance => p.handed.length = p.taken.length ∧ (p.cursor + 1) % n = p.handed.length % n
  | .crashed => False
  | .done => False

/-- The invariant of a running fastest-available pool: an idle worker (flag false) has an
empty private channel and waits at its receive; a worker past its receive has an empty private
channel; a private channel never buffers more than one item; and the worker the scheduler has
selected is waiting at its receive with an empty private channel, its flag already set once
the scheduler is at its send. -/
def FastestInv (p : PoolSt) : Prop :=
  p.strategy = SchedulingStrategy.PushFastestAvailable ∧
  (∀ (i : Nat) (w : WorkerSt), p.workers[i]? = some w → w.worker.busy = false →
    w.queue.buf = [] ∧ w.pc = WorkPc.recv) ∧
  (∀ (i : Nat) (w : WorkerSt), p.workers[i]? = some w → w.pc ≠ WorkPc.recv → w.queue.buf = []) ∧
  (∀ (i : Nat) (w : WorkerSt), p.workers[i]? = some w → w.queue.buf.length ≤ 1) ∧
  match p.pc with
  | .mark _ (some i) => ∃ w, p.workers[i]? = some w ∧ w.queue.buf = [] ∧ w.pc = WorkPc.recv
  | .send _ i =>
    ∃ w, p.workers[i]? = some w ∧ w.queue.buf = [] ∧ w.pc = WorkPc.recv ∧
      w.worker.busy = true
  | _ => True

/-- The invariant behind "busy only with work": a worker whose flag is set is the target of the
scheduler's pending send, or has an item in its private channel, or is past its receive. -/
def BusyHasWork (p : PoolSt) : Prop :=
  ∀ (i : Nat) (w : WorkerSt), p.workers[i]? = some w → w.worker.busy = true →
    (∃ b, p.pc = SchedPc.send b i) ∨ w.queue.buf ≠ [] ∨ w.pc ≠ WorkPc.recv

/-- The assignment the round-robin discipline prescribes, in the spec's words: item `i`
(0-indexed; here counted from `k`) goes to worker `i mod n`. -/
def planFrom (n : Nat) : Nat → List BeansPtr → List (Nat × BeansPtr)
  | _, [] => []
  | k, b :: rest => (k % n, b) :: planFrom n (k + 1) rest

/-- The prescribed assignment of a whole sequence of items. -/
def roundRobinPlan (n : Nat) (items : List BeansPtr) : List (Nat × BeansPtr) :=
  planFrom n 0 items

/-- A running round-robin pool written out by its parts. -/
def roundRobinSys (inputCap outputCap : Nat) (inBuf outBuf : List BeansPtr)
    (workers : List WorkerSt) (cursor : Nat) (pc : SchedPc) (taken : List BeansPtr)
    (handed : List (Nat × BeansPtr)) : PoolSys :=
  { input := { cap := inputCap, buf := inBuf }
    output := { cap := outputCap, buf := outBuf }
    pool := { strategy := SchedulingStrategy.PushRoundRobin, workers := workers,
              cursor := cursor, pc := pc, taken := taken, handed := handed } }

/-- A round-robin pool of `n` workers at rest after `items` went through it: both pool
channels and all private channels are empty, every goroutine waits at its receive, and the
scheduler has taken exactly `items` and handed them out as prescribed. -/
def Quiescent (n inputCap outputCap : Nat) (items : List BeansPtr) (s : PoolSys) : Prop :=
  s.input = { cap := inputCap, buf := [] } ∧ s.output = { cap := outputCap, buf := [] } ∧
  s.pool.strategy = SchedulingStrategy.PushRoundRobin ∧ s.pool.workers.length = n ∧
  (∀ w ∈ s.pool.workers, w.queue = Channel.make WorkerInputBufferSize ∧ w.pc = WorkPc.recv) ∧
  s.pool.cursor = items.length % n ∧ s.pool.pc = SchedPc.recv ∧ s.pool.taken = items ∧
  s.pool.handed = roundRobinPlan n items

/-- The private channel of each worker `j` holds, in order, the most recent of the items the
scheduler's log says were sent to worker `j` (the earlier ones were received by the worker). -/
def QueueLog (p : PoolSt) : Prop :=
  ∀ (j : Nat) (w : WorkerSt), p.workers[j]? = some w →
    ∃ earlier : List BeansPtr,
      (p.handed.filter fun e => e.1 = j).map Prod.snd = earlier ++ w.queue.buf

/-! ## Tasks and the order workflow: lemmas -/

theorem truncToInt_le {x : ℚ} (hx : 0 ≤ x) : ((truncToInt x : Int) : ℚ) ≤ x := by
  unfold truncToInt
  rw [if_pos hx]
  exact Int.floor_le x

/-- What a finished inner loop of `ServeCoffee` has done: it received a non-empty run of items,
added all their units to the reservoir, and stopped on its exit test. -/
theorem awaitCoffee_some {wanted : Int} :
    ∀ {output : List BeansPtr} {r r1 : ℚ} {rest : List BeansPtr},
      awaitCoffee wanted r output = Awaited.enough r1 rest →
      ∃ got : List BeansPtr, got ≠ [] ∧ output = got ++ rest ∧
        r1 = r + (got.map fun b => b.val.units).sum ∧ wanted ≤ truncToInt r1 := by
  intro output
  induction output with
  | nil => intro r r1 rest h; simp [awaitCoffee] at h
  | cons b out ih =>
    intro r r1 rest h
    simp only [awaitCoffee] at h
    split at h
    · rename_i hw
      simp only [Awaited.enough.injEq] at h
      obtain ⟨h1, h2⟩ := h
      subst h1; subst h2
      exact ⟨[b], by simp, by simp, by simp, hw⟩
    · obtain ⟨got, -, hout, hr, hw⟩ := ih h
      refine ⟨b :: got, by simp, by simp [hout], ?_, hw⟩
      rw [hr]; simp [add_assoc]

/-- The outer loop of `ServeCoffee` runs the orders one after the other: the state and the
undelivered items left by the orders served so far are what the later orders start from. -/
theorem serveOrders_append (served later : List Order) :
    ∀ (cs : CoffeeShop) (output : List BeansPtr),
      serveOrders (served ++ later) cs output =
        match serveOrders served cs output with
        | .returned cs1 rest => serveOrders later cs1 rest
        | .blocked cs1 => .blocked cs1 := by
  induction served with
  | nil => intro cs output; simp [serveOrders]
  | cons o os ih =>
    intro cs output
    simp only [List.cons_append, serveOrders]
    cases h : awaitCoffee o.ouncesOfCoffeeWanted cs.readyCoffee.amountOunces output with
    | starved r1 => simp
    | enough r1 rest => simp [ih]

/-- The reservoir after a run of served orders. -/
theorem serveOrders_returned :
    ∀ (served : List Order) (cs cs1 : CoffeeShop) (output rest : List BeansPtr),
      serveOrders served cs output = .returned cs1 rest →
      ∃ got : List BeansPtr, output = got ++ rest ∧
        cs1.readyCoffee.amountOunces =
          cs.readyCoffee.amountOunces + (got.map fun b => b.val.units).sum -
            (served.map fun o => (o.ouncesOfCoffeeWanted : ℚ)).sum ∧
        cs1.orders = cs.orders ∧
        cs1.metrics.ordersServed = cs.metrics.ordersServed + served.length ∧
        ((∀ b ∈ output, 0 ≤ b.val.units) → 0 ≤ cs.readyCoffee.amountOunces →
          0 ≤ cs1.readyCoffee.amountOunces) := by
  intro served
  induction served with
  | nil =>
    intro cs cs1 output rest h
    simp only [serveOrders, Served.returned.injEq] at h
    obtain ⟨h1, h2⟩ := h
    subst h1; subst h2
    exact ⟨[], by simp, by simp, rfl, by simp, fun _ h => h⟩
  | cons o os ih =>
    intro cs cs1 output rest h
    simp only [serveOrders] at h
    cases ha : awaitCoffee o.ouncesOfCoffeeWanted cs.readyCoffee.amountOunces output with
    | starved r1 => simp [ha] at h
    | enough r1 out1 =>
      simp only [ha] at h
      obtain ⟨got1, -, hout1, hr1, hw⟩ := awaitCoffee_some ha
      obtain ⟨got2, hout2, hres, hord, hcnt, hnn⟩ := ih _ _ _ _ h
      refine ⟨got1 ++ got2, by simp [hout1, hout2], ?_, by simpa using hord, ?_, ?_⟩
      · rw [hres]; simp only [hr1, List.map_append, List.sum_append, List.map_cons, List.sum_cons]
        ring
      · rw [hcnt]; simp only [List.length_cons, Nat.cast_add, Nat.cast_one]; ring
      · intro hunits h0
        apply hnn
        · intro b hb; apply hunits; rw [hout1]; simp [hb]
        · have hsum : 0 ≤ (got1.map fun b => b.val.units).sum := by
            apply List.sum_nonneg
            intro x hx
            simp only [List.mem_map] at hx
            obtain ⟨b, hb, rfl⟩ := hx
            apply hunits; rw [hout1]; simp [hb]
          have hr1nn : 0 ≤ r1 := by rw [hr1]; exact add_nonneg h0 hsum
          have h1 := truncToInt_le hr1nn
          have h2 : ((o.ouncesOfCoffeeWanted : Int) : ℚ) ≤ ((truncToInt r1 : Int) : ℚ) := by
            exact_mod_cast hw
          simp only [sub_nonneg]
          exact le_trans h2 h1

/-- The reservoir of a shop the program can hold is never negative. -/
theorem reachable_reservoir_nonneg {cs : CoffeeShop} (h : cs.Reachable) :
    0 ≤ cs.readyCoffee.amountOunces := by
  induction h with
  | new grinders brewers strategy rt rt1 cs h =>
    simp only [NewCoffeeShop, Option.map_eq_some'] at h
    obtain ⟨r, -, hr⟩ := h
    simp only [Prod.mk.injEq] at hr
    rw [← hr.1]
  | take cs order addr _ ih => simpa [CoffeeShop.TakeOrder] using ih
  | serve cs cs1 output rest _ hunits hret ih =>
    obtain ⟨_, _, _, _, _, hnn⟩ := serveOrders_returned _ _ _ _ _ hret
    exact hnn hunits ih

/-! ## Tasks and the order workflow: the claims -/

theorem pullShop_new :
    ∃ rt1, NewCoffeeShop [{ gramsPerSecond := 5 }] [{ ouncesWaterPerSecond := 100 }]
      SchedulingStrategy.Pull emptyRuntime = some (pullShop, rt1) :=
  ⟨_, rfl⟩

theorem twoOrderShop_reachable : twoOrderShop.Reachable := by
  obtain ⟨rt1, h⟩ := pullShop_new
  exact CoffeeShop.Reachable.take _ _ _
    (CoffeeShop.Reachable.take _ _ _ (CoffeeShop.Reachable.new _ _ _ _ _ _ h))

theorem wrapInt_small {n : Int} (h1 : -(2 ^ 63) ≤ n) (h2 : n < 2 ^ 63) : wrapInt n = n := by
  unfold wrapInt
  rw [Int.emod_eq_of_lt (by omega) (by omega)]
  omega

theorem float32OfInt_small {n : Int} (h : n.natAbs < 2 ^ 24) : float32OfInt n = (n : ℚ) := by
  unfold float32OfInt
  simp only [h, if_true]

/-- The item that comes out of the pipeline for a small order carries the order's ounces. -/
theorem brewedFor_eq (w : Int) (addr : Nat) (h1 : -1000000 < w) (h2 : w < 1000000) :
    brewedFor { ouncesOfCoffeeWanted := w } addr =
      { addr := addr, val := { units := (w : ℚ), state := BeanStateBrewed } } := by
  have hwrap : wrapInt (2 * w) = 2 * w := wrapInt_small (by omega) (by omega)
  have hf : float32OfInt (2 * w) = ((2 * w : Int) : ℚ) := float32OfInt_small (by omega)
  simp only [brewedFor, Brewer.Brew, Grinder.Grind, CoffeeShop.TakeOrder,
    GramsBeansPerOunceCoffee, GramsBeansPerOunceWater, hwrap, hf]
  congr 2
  push_cast
  ring

theorem brewedFor_5 (addr : Nat) : brewedFor { ouncesOfCoffeeWanted := 5 } addr =
    { addr := addr, val := { units := 5, state := BeanStateBrewed } } := by
  simpa using brewedFor_eq 5 addr (by decide) (by decide)

theorem brewedFor_10 (addr : Nat) : brewedFor { ouncesOfCoffeeWanted := 10 } addr =
    { addr := addr, val := { units := 10, state := BeanStateBrewed } } := by
  simpa using brewedFor_eq 10 addr (by decide) (by decide)

theorem brewedFor_12 (addr : Nat) : brewedFor { ouncesOfCoffeeWanted := 12 } addr =
    { addr := addr, val := { units := 12, state := BeanStateBrewed } } := by
  simpa using brewedFor_eq 12 addr (by decide) (by decide)

theorem brewedFor_3 (addr : Nat) : brewedFor { ouncesOfCoffeeWanted := 3 } addr =
    { addr := addr, val := { units := 3, state := BeanStateBrewed } } := by
  simpa using brewedFor_eq 3 addr (by decide) (by decide)

/-- C7 (evaluation at the failing input): the shop took a 10 oz and a 5 oz order, and the
pipeline delivers exactly one brewed item per order, the 5 oz item first.  `ServeCoffee` serves
the first order with both items, then blocks forever on a third receive although the reservoir
already holds the 5 oz of the second order: it never returns, with `ordersServed = 1`. -/
theorem serveCoffee_blocks_out_of_order :
    twoOrderShop.orders = [{ ouncesOfCoffeeWanted := 10 }, { ouncesOfCoffeeWanted := 5 }] ∧
    List.Perm [brewedFor { ouncesOfCoffeeWanted := 5 } 1, brewedFor { ouncesOfCoffeeWanted := 10 } 0]
      (twoOrderShop.orders.enum.map fun p => brewedFor p.2 p.1) ∧
    ∃ cs1 : CoffeeShop,
      twoOrderShop.ServeCoffee
        [brewedFor { ouncesOfCoffeeWanted := 5 } 1, brewedFor { ouncesOfCoffeeWanted := 10 } 0] =
          Served.blocked cs1 ∧
      cs1.metrics.ordersTaken = 2 ∧ cs1.metrics.ordersServed = 1 ∧
      cs1.readyCoffee.amountOunces = 5 := by
  have horders : twoOrderShop.orders =
      [{ ouncesOfCoffeeWanted := 10 }, { ouncesOfCoffeeWanted := 5 }] := rfl
  refine ⟨horders, ?_, ?_⟩
  · rw [horders]
    exact List.Perm.swap _ _ _
  · simp only [CoffeeShop.ServeCoffee, horders, brewedFor_5, brewedFor_10, serveOrders,
      awaitCoffee, truncToInt]
    norm_num [twoOrderShop, pullShop, CoffeeShop.TakeOrder, awaitCoffee]

/-- C8: for a shop the program can hold, serving against any items with non-negative units:
right after order `k` (the orders `served ++ [order]` are done) the reservoir is its value
before the call plus the units of all items received so far minus the ounces of the orders
served so far, it is non-negative, and the rest of the call serves the later orders starting
from exactly that state and the items not yet received. -/
theorem reservoir_running (cs : CoffeeShop) (hcs : cs.Reachable) (output : List BeansPtr)
    (hunits : ∀ b ∈ output, 0 ≤ b.val.units)
    (served later : List Order) (order : Order)
    (horders : cs.orders = served ++ order :: later)
    (cs1 : CoffeeShop) (rest : List BeansPtr)
    (hserved : serveOrders (served ++ [order]) cs output = Served.returned cs1 rest) :
    ∃ got : List BeansPtr, output = got ++ rest ∧
      cs1.readyCoffee.amountOunces =
        cs.readyCoffee.amountOunces + (got.map fun b => b.val.units).sum -
          ((served ++ [order]).map fun o => (o.ouncesOfCoffeeWanted : ℚ)).sum ∧
      0 ≤ cs1.readyCoffee.amountOunces ∧
      cs.ServeCoffee output = serveOrders later cs1 rest := by
  obtain ⟨got, hout, hres, -, -, hnn⟩ := serveOrders_returned _ _ _ _ _ hserved
  refine ⟨got, hout, hres, hnn hunits (reachable_reservoir_nonneg hcs), ?_⟩
  have hsplit : cs.orders = (served ++ [order]) ++ later := by simp [horders]
  rw [CoffeeShop.ServeCoffee, hsplit, serveOrders_append, hserved]

/-- C8 at a concrete call: the two-order shop, the pipeline delivering 12 oz and then 3 oz;
right after the first order (10 oz) the reservoir holds 2 oz. -/
theorem reservoir_running_witness :
    ∃ got : List BeansPtr,
      [brewedFor { ouncesOfCoffeeWanted := 12 } 0, brewedFor { ouncesOfCoffeeWanted := 3 } 1] =
        got ++ [brewedFor { ouncesOfCoffeeWanted := 3 } 1] ∧
      (2 : ℚ) = twoOrderShop.readyCoffee.amountOunces + (got.map fun b => b.val.units).sum -
          (([] ++ [({ ouncesOfCoffeeWanted := 10 } : Order)]).map
            fun o : Order => (o.ouncesOfCoffeeWanted : ℚ)).sum ∧
      0 ≤ (2 : ℚ) ∧
      twoOrderShop.ServeCoffee
          [brewedFor { ouncesOfCoffeeWanted := 12 } 0, brewedFor { ouncesOfCoffeeWanted := 3 } 1] =
        serveOrders [{ ouncesOfCoffeeWanted := 5 }]
          { twoOrderShop with
            readyCoffee := { amountOunces := 2 }
            metrics := { ordersTaken := 2, ordersServed := 1, ozCoffeeServed := 10 } }
          [brewedFor { ouncesOfCoffeeWanted := 3 } 1] :=
  reservoir_running twoOrderShop twoOrderShop_reachable
    [brewedFor { ouncesOfCoffeeWanted := 12 } 0, brewedFor { ouncesOfCoffeeWanted := 3 } 1]
    (by intro b hb; simp only [brewedFor_12, brewedFor_3, List.mem_cons, List.mem_singleton,
          List.not_mem_nil, or_false] at hb; rcases hb with rfl | rfl <;> norm_num)
    [] [{ ouncesOfCoffeeWanted := 5 }] { ouncesOfCoffeeWanted := 10 } rfl
    { twoOrderShop with
      readyCoffee := { amountOunces := 2 }
      metrics := { ordersTaken := 2, ordersServed := 1, ozCoffeeServed := 10 } }
    [brewedFor { ouncesOfCoffeeWanted := 3 } 1]
    (by simp only [brewedFor_12, brewedFor_3, List.nil_append, serveOrders, awaitCoffee,
          truncToInt]
        norm_num [twoOrderShop, pullShop, CoffeeShop.TakeOrder])

/-- C9 (refutation): a grinder reverts brewed beans to ground, so it is not true that every
task leaves the state of every `Beans` value at least where it was. -/
theorem tasks_forward_counterexample :
    ¬ ∀ (g : Grinder) (br : Brewer) (b : BeansPtr),
        (b.val.state = BeanStateUnground ∨ b.val.state = BeanStateGround ∨
          b.val.state = BeanStateBrewed) →
        b.val.state ≤ (g.Grind b).val.state ∧ b.val.state ≤ (br.Brew b).val.state := by
  intro h
  have h1 := (h { gramsPerSecond := 5 } { ouncesWaterPerSecond := 100 }
    { addr := 0, val := { units := 12, state := BeanStateBrewed } } (Or.inr (Or.inr rfl))).1
  exact absurd h1 (by decide)

/-- C9 (amended): for beans in any of the three states, `Brew` leaves them `Brewed`, which is
at least the state they had; `Grind` leaves them `Ground`, which is at least the state they had
exactly when they were not `Brewed`. -/
theorem tasks_forward_amended (g : Grinder) (br : Brewer) (b : BeansPtr)
    (hb : b.val.state = BeanStateUnground ∨ b.val.state = BeanStateGround ∨
      b.val.state = BeanStateBrewed) :
    (br.Brew b).val.state = BeanStateBrewed ∧ b.val.state ≤ (br.Brew b).val.state ∧
    (g.Grind b).val.state = BeanStateGround ∧
    (b.val.state ≤ (g.Grind b).val.state ↔ b.val.state ≠ BeanStateBrewed) := by
  simp only [Brewer.Brew, Grinder.Grind]
  rcases hb with h | h | h <;> rw [h] <;> decide

/-- C9 (amended) on ground beans. -/
theorem tasks_forward_amended_witness :
    (Brewer.Brew { ouncesWaterPerSecond := 100 }
        { addr := 0, val := { units := 12, state := BeanStateGround } }).val.state =
      BeanStateBrewed ∧
    BeanStateGround ≤ (Brewer.Brew { ouncesWaterPerSecond := 100 }
        { addr := 0, val := { units := 12, state := BeanStateGround } }).val.state ∧
    (Grinder.Grind { gramsPerSecond := 5 }
        { addr := 0, val := { units := 12, state := BeanStateGround } }).val.state =
      BeanStateGround ∧
    (BeanStateGround ≤ (Grinder.Grind { gramsPerSecond := 5 }
        { addr := 0, val := { units := 12, state := BeanStateGround } }).val.state ↔
      BeanStateGround ≠ BeanStateBrewed) :=
  tasks_forward_amended { gramsPerSecond := 5 } { ouncesWaterPerSecond := 100 }
    { addr := 0, val := { units := 12, state := BeanStateGround } } (Or.inr (Or.inl rfl))

/-! ## `fastestAvailableWorker` -/

theorem mem_availableFrom {ws : List Worker} :
    ∀ {n j : Nat} {w : Worker},
      (j, w) ∈ availableFrom n ws ↔ n ≤ j ∧ ws[j - n]? = some w ∧ w.busy = false := by
  induction ws with
  | nil => intro n j w; simp [availableFrom]
  | cons v vs ih =>
    intro n j w
    have key : (j, w) ∈ availableFrom (n + 1) vs ↔
        n ≤ j ∧ j ≠ n ∧ (v :: vs)[j - n]? = some w ∧ w.busy = false := by
      rw [ih]
      constructor
      · rintro ⟨h1, h2, h3⟩
        refine ⟨by omega, by omega, ?_, h3⟩
        have : j - n = (j - (n + 1)) + 1 := by omega
        rw [this, List.getElem?_cons_succ]; exact h2
      · rintro ⟨h1, h2, h3, h4⟩
        refine ⟨by omega, ?_, h4⟩
        have : j - n = (j - (n + 1)) + 1 := by omega
        rw [this, List.getElem?_cons_succ] at h3; exact h3
    simp only [availableFrom]
    by_cases hb : v.busy = true
    · simp only [hb, Bool.not_true, Bool.false_eq_true, if_false]
      rw [key]
      constructor
      · rintro ⟨h1, _, h3, h4⟩; exact ⟨h1, h3, h4⟩
      · rintro ⟨h1, h3, h4⟩
        refine ⟨h1, ?_, h3, h4⟩
        intro hjn
        subst hjn
        simp only [Nat.sub_self, List.getElem?_cons_zero, Option.some.injEq] at h3
        subst h3
        simp [hb] at h4
    · have hb1 : v.busy = false := by simpa using hb
      simp only [hb1, Bool.not_false, if_true, List.mem_cons, Prod.mk.injEq]
      rw [key]
      constructor
      · rintro (⟨rfl, rfl⟩ | ⟨h1, _, h3, h4⟩)
        · simp [hb1]
        · exact ⟨h1, h3, h4⟩
      · rintro ⟨h1, h3, h4⟩
        by_cases hjn : j = n
        · left
          subst hjn
          simp only [Nat.sub_self, List.getElem?_cons_zero, Option.some.injEq] at h3
          exact ⟨rfl, h3.symm⟩
        · right; exact ⟨h1, hjn, h3, h4⟩

theorem mem_availableWorkers {ws : List Worker} {j : Nat} {w : Worker} :
    (j, w) ∈ availableWorkers ws ↔ ws[j]? = some w ∧ w.busy = false := by
  simp [availableWorkers, mem_availableFrom]

/-- The scan lists the available workers in pool order. -/
theorem availableFrom_sorted (ws : List Worker) :
    ∀ n : Nat, (availableFrom n ws).Pairwise fun a b => a.1 < b.1 := by
  induction ws with
  | nil => intro n; simp [availableFrom]
  | cons v vs ih =>
    intro n
    simp only [availableFrom]
    split
    · rw [List.pairwise_cons]
      refine ⟨?_, ih (n + 1)⟩
      rintro ⟨j, w⟩ hj
      have := (mem_availableFrom.mp hj).1
      simp only; omega
    · exact ih (n + 1)

/-- The selection loop either keeps its starting value because no listed worker beats the
starting throughput, or returns the first listed worker of greatest throughput. -/
theorem fastestLoop_spec :
    ∀ (av : List (Nat × Worker)) (fw : Option Nat) (ft : Int),
      (fastestLoop av fw ft = fw ∧ ∀ x ∈ av, x.2.throughput ≤ ft) ∨
      ∃ pre i w post, av = pre ++ (i, w) :: post ∧ fastestLoop av fw ft = some i ∧
        ft < w.throughput ∧ (∀ x ∈ pre, x.2.throughput < w.throughput) ∧
        ∀ x ∈ post, x.2.throughput ≤ w.throughput := by
  intro av
  induction av with
  | nil => intro fw ft; left; simp [fastestLoop]
  | cons x rest ih =>
    intro fw ft
    obtain ⟨i, w⟩ := x
    simp only [fastestLoop]
    by_cases hgt : w.throughput > ft
    · rw [if_pos hgt]
      right
      rcases ih (some i) w.throughput with ⟨h1, h2⟩ | ⟨pre, i1, w1, post, h1, h2, h3, h4, h5⟩
      · exact ⟨[], i, w, rest, by simp, h1, hgt, by simp, h2⟩
      · refine ⟨(i, w) :: pre, i1, w1, post, by simp [h1], h2, by omega, ?_, h5⟩
        intro x hx
        rcases List.mem_cons.mp hx with rfl | hx
        · exact h3
        · exact h4 x hx
    · rw [if_neg hgt]
      rcases ih fw ft with ⟨h1, h2⟩ | ⟨pre, i1, w1, post, h1, h2, h3, h4, h5⟩
      · left
        refine ⟨h1, ?_⟩
        intro x hx
        rcases List.mem_cons.mp hx with rfl | hx
        · simp only; omega
        · exact h2 x hx
      · right
        refine ⟨(i, w) :: pre, i1, w1, post, by simp [h1], h2, h3, ?_, h5⟩
        intro x hx
        rcases List.mem_cons.mp hx with rfl | hx
        · simp only; omega
        · exact h4 x hx

/-- One poll of a pool with an available worker returns at once: `nil` when no available
worker has positive throughput, otherwise the first available worker of greatest throughput,
which is positive. -/
theorem poll_spec (workers : List Worker) (hidle : ∃ w ∈ workers, w.busy = false) :
    ∃ r, fastestAvailableWorkerPoll workers = some r ∧
      ((r = none ∧ ∀ w ∈ workers, w.busy = false → w.throughput ≤ 0) ∨
       ∃ i w, r = some i ∧ workers[i]? = some w ∧ w.busy = false ∧ 0 < w.throughput ∧
         ∀ j v, workers[j]? = some v → v.busy = false →
           v.throughput ≤ w.throughput ∧ (v.throughput = w.throughput → i ≤ j)) := by
  obtain ⟨w0, hw0, hb0⟩ := hidle
  obtain ⟨k, hk⟩ := List.getElem?_of_mem hw0
  have hne : (availableWorkers workers).length ≠ 0 := by
    have : (k, w0) ∈ availableWorkers workers := mem_availableWorkers.mpr ⟨hk, hb0⟩
    intro h
    rw [List.length_eq_zero] at h
    rw [h] at this
    simp at this
  refine ⟨fastestLoop (availableWorkers workers) none 0, by
    simp [fastestAvailableWorkerPoll, hne], ?_⟩
  rcases fastestLoop_spec (availableWorkers workers) none 0 with
    ⟨h1, h2⟩ | ⟨pre, i, w, post, h1, h2, h3, h4, h5⟩
  · left
    refine ⟨h1, ?_⟩
    intro w hw hb
    obtain ⟨j, hj⟩ := List.getElem?_of_mem hw
    exact h2 (j, w) (mem_availableWorkers.mpr ⟨hj, hb⟩)
  · right
    have hmem : (i, w) ∈ availableWorkers workers := by rw [h1]; simp
    obtain ⟨hi, hb⟩ := mem_availableWorkers.mp hmem
    refine ⟨i, w, h2, hi, hb, h3, ?_⟩
    intro j v hj hvb
    have hjm : (j, v) ∈ availableWorkers workers := mem_availableWorkers.mpr ⟨hj, hvb⟩
    have hsorted := availableFrom_sorted workers 0
    rw [← availableWorkers, h1, List.pairwise_append] at hsorted
    obtain ⟨_, hs2, hs3⟩ := hsorted
    rw [h1, List.mem_append, List.mem_cons] at hjm
    rcases hjm with hpre | heq | hpost
    · have := h4 _ hpre
      simp only at this
      exact ⟨by omega, by omega⟩
    · simp only [Prod.mk.injEq] at heq
      obtain ⟨rfl, rfl⟩ := heq
      exact ⟨le_refl _, fun _ => le_refl _⟩
    · refine ⟨h5 _ hpost, fun _ => ?_⟩
      have := (List.pairwise_cons.mp hs2).1 _ hpost
      simp only at this
      omega

/-- C1: in a pool whose workers all have positive throughput and with at least one idle
worker, `fastestAvailableWorker` returns on its first poll a worker of the pool (position `i`)
that is idle, whose throughput is at least that of every idle worker, and that comes first in
pool order among the idle workers of that throughput. -/
theorem fastest_available_selection (workers : List Worker) (later : List (List Worker))
    (hpos : ∀ w ∈ workers, 0 < w.throughput) (hidle : ∃ w ∈ workers, w.busy = false) :
    ∃ i w, fastestAvailableWorker (workers :: later) = some (some i, 0) ∧
      workers[i]? = some w ∧ w.busy = false ∧
      ∀ j v, workers[j]? = some v → v.busy = false →
        v.throughput ≤ w.throughput ∧ (v.throughput = w.throughput → i ≤ j) := by
  obtain ⟨r, hr, hcase⟩ := poll_spec workers hidle
  rcases hcase with ⟨-, hnone⟩ | ⟨i, w, rfl, hi, hb, -, hmax⟩
  · obtain ⟨w0, hw0, hb0⟩ := hidle
    have h1 := hnone w0 hw0 hb0
    have h2 := hpos w0 hw0
    omega
  · exact ⟨i, w, by simp [fastestAvailableWorker, hr], hi, hb, hmax⟩

/-- C10: with at least one idle worker (throughputs arbitrary), `fastestAvailableWorker`
returns on its first poll, without sleeping; it returns `nil` exactly when every idle worker
has throughput `<= 0`, and otherwise an idle worker of positive throughput.  In
`scheduleFastestAvailable` the call yields that result, and on `nil` the next statement
(`worker.busy.Store(true)`) panics. -/
theorem selection_when_idle (workers : List Worker) (later : List (List Worker))
    (hidle : ∃ w ∈ workers, w.busy = false) :
    ∃ r, fastestAvailableWorker (workers :: later) = some (r, 0) ∧
      (r = none ↔ ∀ w ∈ workers, w.busy = false → w.throughput ≤ 0) ∧
      (∀ i, r = some i → ∃ w, workers[i]? = some w ∧ w.busy = false ∧ 0 < w.throughput) ∧
      ∀ (p : PoolSt) (beans : BeansPtr) (input : Channel),
        p.strategy = SchedulingStrategy.PushFastestAvailable → p.pc = SchedPc.pick beans →
        p.structs = workers →
        p.schedStep input = some (input, { p with pc := SchedPc.mark beans r }) ∧
        (r = none →
          PoolSt.schedStep { p with pc := SchedPc.mark beans r } input =
            some (input, { p with pc := SchedPc.crashed })) := by
  obtain ⟨r, hr, hcase⟩ := poll_spec workers hidle
  refine ⟨r, by simp [fastestAvailableWorker, hr], ?_, ?_, ?_⟩
  · rcases hcase with ⟨rfl, hnone⟩ | ⟨i, w, rfl, hi, hb, hpos, -⟩
    · simp only [true_iff]; exact hnone
    · simp only [false_iff, reduceCtorEq]
      intro h
      have := h w (List.getElem?_mem hi) hb
      omega
  · intro i hi
    rcases hcase with ⟨rfl, -⟩ | ⟨i1, w, rfl, hi1, hb, hpos, -⟩
    · simp at hi
    · simp only [Option.some.injEq] at hi
      subst hi
      exact ⟨w, hi1, hb, hpos⟩
  · intro p beans input hs hpc hst
    constructor
    · simp only [PoolSt.schedStep, hpc, hs, hst, hr]
    · intro hnil
      subst hnil
      simp only [PoolSt.schedStep]

/-- C1 on the spec's scenario: workers of throughput 5 and 10, both idle; the second one is
selected. -/
theorem fastest_available_selection_witness :
    ∃ i w, fastestAvailableWorker
        ([NewWorker "p[0]" { input := 2, output := 1 } (BeanTask.grind { gramsPerSecond := 5 }) 5,
          NewWorker "p[1]" { input := 3, output := 1 } (BeanTask.grind { gramsPerSecond := 10 }) 10]
          :: []) = some (some i, 0) ∧
      [NewWorker "p[0]" { input := 2, output := 1 } (BeanTask.grind { gramsPerSecond := 5 }) 5,
        NewWorker "p[1]" { input := 3, output := 1 } (BeanTask.grind { gramsPerSecond := 10 }) 10][i]?
          = some w ∧ w.busy = false ∧
      ∀ j v,
        [NewWorker "p[0]" { input := 2, output := 1 } (BeanTask.grind { gramsPerSecond := 5 }) 5,
          NewWorker "p[1]" { input := 3, output := 1 } (BeanTask.grind { gramsPerSecond := 10 }) 10][j]?
            = some v → v.busy = false →
        v.throughput ≤ w.throughput ∧ (v.throughput = w.throughput → i ≤ j) :=
  fastest_available_selection _ [] (by simp [NewWorker]) (by simp [NewWorker])

/-! ## Construction -/

/-- The worker loop of `NewWorkerPool` fails exactly when a task has no throughput at its
index. -/
theorem newWorkers_isSome (id : String) (io : IOChans) (thr : List Int)
    (strategy : SchedulingStrategy) :
    ∀ (tasks : List BeanTask) (i : Nat) (ws : List Worker) (rt : Runtime),
      (newWorkers id io thr strategy tasks i ws rt).isSome ↔
        (tasks = [] ∨ i + tasks.length ≤ thr.length) := by
  intro tasks
  induction tasks with
  | nil => intro i ws rt; simp [newWorkers]
  | cons t rest ih =>
    intro i ws rt
    simp only [newWorkers]
    cases hthr : thr[i]? with
    | none =>
      have hlen : thr.length ≤ i := by simpa using hthr
      simp only [Option.isSome_none, Bool.false_eq_true, false_iff, reduceCtorEq, false_or,
        List.length_cons]
      omega
    | some x =>
      have hlen : i < thr.length := by
        rcases Nat.lt_or_ge i thr.length with h | h
        · exact h
        · have : thr[i]? = none := by simpa using h
          rw [this] at hthr; cases hthr
      simp only [ih, reduceCtorEq, false_or, List.length_cons]
      constructor
      · rintro (h | h)
        · subst h; simp only [List.length_nil]; omega
        · omega
      · intro h
        by_cases hr : rest = []
        · left; exact hr
        · right; omega

/-- What the worker loop of `NewWorkerPool` builds when every task has a throughput. -/
theorem newWorkers_spec (id : String) (io : IOChans) (thr : List Int)
    (strategy : SchedulingStrategy) :
    ∀ (tasks : List BeanTask) (i : Nat) (ws : List Worker) (rt : Runtime),
      i + tasks.length ≤ thr.length →
      ∃ new rt1, newWorkers id io thr strategy tasks i ws rt = some (ws ++ new, rt1) ∧
        new.length = tasks.length ∧
        rt1.spawned = rt.spawned ++ new.map Goroutine.work ∧
        (∀ w ∈ new, w.io.output = io.output ∧ w.busy = false) ∧
        new.map Worker.throughput = (thr.drop i).take tasks.length ∧
        new.map Worker.task = tasks ∧
        (strategy = SchedulingStrategy.Pull →
          (∀ w ∈ new, w.io.input = io.input) ∧ rt1.chans = rt.chans) ∧
        (strategy ≠ SchedulingStrategy.Pull →
          (new.map fun w => w.io.input) = List.range' rt.chans.length tasks.length ∧
          rt1.chans = rt.chans ++ List.replicate tasks.length WorkerInputBufferSize) := by
  intro tasks
  induction tasks with
  | nil =>
    intro i ws rt _
    exact ⟨[], rt, by simp [newWorkers], rfl, by simp, by simp, by simp, by simp,
      fun _ => ⟨by simp, rfl⟩, fun _ => ⟨by simp, by simp⟩⟩
  | cons t rest ih =>
    intro i ws rt hlen
    simp only [List.length_cons] at hlen
    have hi : i < thr.length := by omega
    have hthr : thr[i]? = some thr[i] := List.getElem?_eq_getElem hi
    have hdrop : (thr.drop i).take (rest.length + 1) =
        thr[i] :: (thr.drop (i + 1)).take rest.length := by
      rw [List.drop_eq_getElem_cons hi, List.take_succ_cons]
    simp only [newWorkers, hthr]
    by_cases hs : strategy = SchedulingStrategy.Pull
    · simp only [hs, if_true]
      obtain ⟨new, rt1, h1, h2, h3, h4, h5, h6, h7, -⟩ :=
        ih (i + 1)
          (ws ++ [NewWorker (id ++ "[" ++ toString i ++ "]")
            { input := io.input, output := io.output } t thr[i]])
          (rt.go (Goroutine.work (NewWorker (id ++ "[" ++ toString i ++ "]")
            { input := io.input, output := io.output } t thr[i]))) (by omega)
      subst hs
      obtain ⟨h7a, h7b⟩ := h7 rfl
      refine ⟨NewWorker (id ++ "[" ++ toString i ++ "]")
        { input := io.input, output := io.output } t thr[i] :: new, rt1, ?_, ?_, ?_, ?_, ?_, ?_,
        ?_, ?_⟩
      · rw [h1]; simp
      · simp [h2]
      · rw [h3]; simp [Runtime.go]
      · intro w hw
        rcases List.mem_cons.mp hw with rfl | hw
        · simp [NewWorker]
        · exact h4 w hw
      · rw [List.length_cons, hdrop, List.map_cons, h5]; simp [NewWorker]
      · rw [List.map_cons, h6]; simp [NewWorker]
      · intro _
        refine ⟨?_, by rw [h7b]; simp [Runtime.go]⟩
        intro w hw
        rcases List.mem_cons.mp hw with rfl | hw
        · simp [NewWorker]
        · exact h7a w hw
      · intro h; exact absurd rfl h
    · simp only [hs, if_false, Runtime.makeChan]
      obtain ⟨new, rt1, h1, h2, h3, h4, h5, h6, -, h8⟩ :=
        ih (i + 1)
          (ws ++ [NewWorker (id ++ "[" ++ toString i ++ "]")
            { input := rt.chans.length, output := io.output } t thr[i]])
          (Runtime.go { rt with chans := rt.chans ++ [WorkerInputBufferSize] }
            (Goroutine.work (NewWorker (id ++ "[" ++ toString i ++ "]")
              { input := rt.chans.length, output := io.output } t thr[i]))) (by omega)
      obtain ⟨h8a, h8b⟩ := h8 hs
      refine ⟨NewWorker (id ++ "[" ++ toString i ++ "]")
        { input := rt.chans.length, output := io.output } t thr[i] :: new, rt1, ?_, ?_, ?_, ?_,
        ?_, ?_, ?_, ?_⟩
      · rw [h1]; simp
      · simp [h2]
      · rw [h3]; simp [Runtime.go]
      · intro w hw
        rcases List.mem_cons.mp hw with rfl | hw
        · simp [NewWorker]
        · exact h4 w hw
      · rw [List.length_cons, hdrop, List.map_cons, h5]; simp [NewWorker]
      · rw [List.map_cons, h6]; simp [NewWorker]
      · intro h
        exact h.elim
      · intro _
        constructor
        · rw [List.map_cons, h8a]
          simp [NewWorker, Runtime.go, List.range'_succ]
        · rw [h8b]
          simp [Runtime.go, List.replicate_succ]

/-- What `NewWorkerPool` returns when there are at least as many throughputs as tasks. -/
theorem NewWorkerPool_spec (id : String) (io : IOChans) (tasks : List BeanTask)
    (thr : List Int) (strategy : SchedulingStrategy) (rt : Runtime)
    (hlen : tasks.length ≤ thr.length) :
    ∃ wp rt1, NewWorkerPool id io tasks thr strategy rt = some (wp, rt1) ∧
      wp.io = io ∧ wp.id = id ∧ wp.strategy = strategy ∧
      wp.workers.length = tasks.length ∧
      rt1.spawned = rt.spawned ++ wp.workers.map Goroutine.work ∧
      (∀ w ∈ wp.workers, w.io.output = io.output ∧ w.busy = false) ∧
      wp.workers.map Worker.throughput = thr.take tasks.length ∧
      wp.workers.map Worker.task = tasks ∧
      (strategy = SchedulingStrategy.Pull →
        (∀ w ∈ wp.workers, w.io.input = io.input) ∧ rt1.chans = rt.chans) ∧
      (strategy ≠ SchedulingStrategy.Pull →
        (wp.workers.map fun w => w.io.input) = List.range' rt.chans.length tasks.length ∧
        rt1.chans = rt.chans ++ List.replicate tasks.length WorkerInputBufferSize) := by
  obtain ⟨new, rt1, h1, h2, h3, h4, h5, h6, h7, h8⟩ :=
    newWorkers_spec id io thr strategy tasks 0 [] rt (by omega)
  refine ⟨{ io := io, id := id, workers := new, strategy := strategy }, rt1, ?_, rfl, rfl, rfl,
    h2, h3, h4, by simpa using h5, h6, h7, h8⟩
  simp only [NewWorkerPool, h1, List.nil_append]

/-- The workers of a pool made by `NewWorkerPool` all start idle. -/
theorem NewWorkerPool_idle {id : String} {io : IOChans} {tasks : List BeanTask}
    {thr : List Int} {strategy : SchedulingStrategy} {rt rt1 : Runtime} {wp : WorkerPool}
    (h : NewWorkerPool id io tasks thr strategy rt = some (wp, rt1)) :
    wp.strategy = strategy ∧ ∀ w ∈ wp.workers, w.busy = false := by
  have hsome : (newWorkers id io thr strategy tasks 0 [] rt).isSome := by
    simp only [NewWorkerPool] at h
    cases hn : newWorkers id io thr strategy tasks 0 [] rt with
    | none => rw [hn] at h; cases h
    | some r => rfl
  have hlen : tasks.length ≤ thr.length := by
    rcases (newWorkers_isSome id io thr strategy tasks 0 [] rt).mp hsome with h1 | h1
    · subst h1; simp
    · omega
  obtain ⟨wp1, rt2, h1, -, -, h4, -, -, h7, -⟩ :=
    NewWorkerPool_spec id io tasks thr strategy rt hlen
  rw [h1] at h
  simp only [Option.some.injEq, Prod.mk.injEq] at h
  obtain ⟨rfl, rfl⟩ := h
  exact ⟨h4, fun w hw => (h7 w hw).2⟩

/-- What `NewPipeline` builds, for any grinders, brewers and strategy. -/
theorem newPipelineStages_spec (id : String) (grinders : List Grinder) (brewers : List Brewer)
    (strategy : SchedulingStrategy) (rt : Runtime) :
    ∃ st rt1, newPipelineStages id grinders brewers strategy rt = some (st, rt1) ∧
      NewPipeline id grinders brewers strategy rt = some (st.pipeline, rt1) ∧
      st.pipeline.io = { input := rt.chans.length, output := rt.chans.length + 1 } ∧
      st.grinderPool.io = { input := rt.chans.length, output := rt.chans.length + 2 } ∧
      st.brewerPool.io = { input := rt.chans.length + 2, output := rt.chans.length + 1 } ∧
      st.grinderPool.strategy = strategy ∧ st.brewerPool.strategy = strategy ∧
      rt1.spawned = rt.spawned ++ st.grinderPool.workers.map Goroutine.work ++
        [Goroutine.schedule st.grinderPool] ++ st.brewerPool.workers.map Goroutine.work ++
        [Goroutine.schedule st.brewerPool] ∧
      st.grinderPool.workers.map Worker.throughput = grinders.map Grinder.gramsPerSecond ∧
      st.brewerPool.workers.map Worker.throughput = brewers.map Brewer.ouncesWaterPerSecond ∧
      st.grinderPool.workers.map Worker.task = grinders.map BeanTask.grind ∧
      st.brewerPool.workers.map Worker.task = brewers.map BeanTask.brew ∧
      (∀ w ∈ st.grinderPool.workers, w.io.output = rt.chans.length + 2 ∧ w.busy = false) ∧
      (∀ w ∈ st.brewerPool.workers, w.io.output = rt.chans.length + 1 ∧ w.busy = false) ∧
      (strategy = SchedulingStrategy.Pull →
        (∀ w ∈ st.grinderPool.workers, w.io.input = rt.chans.length) ∧
        (∀ w ∈ st.brewerPool.workers, w.io.input = rt.chans.length + 2)) ∧
      (strategy ≠ SchedulingStrategy.Pull →
        ((st.grinderPool.workers ++ st.brewerPool.workers).map fun w => w.io.input) =
          List.range' (rt.chans.length + 3) (grinders.length + brewers.length)) := by
  obtain ⟨gp, rtg, hg1, hg2, hg3, hg4, hg5, hg6, hg7, hg8, hg9, hg10, hg11⟩ :=
    NewWorkerPool_spec (id ++ ":grinder")
      { input := rt.chans.length, output := rt.chans.length + 2 }
      (grinders.map BeanTask.grind) (grinders.map Grinder.gramsPerSecond) strategy
      { rt with chans := rt.chans ++ [PipelineInputBufferSize] ++ [PipelineOutputBufferSize]
                  ++ [WorkerPoolOutputBufferSize] } (by simp)
  obtain ⟨bp, rtb, hb1, hb2, hb3, hb4, hb5, hb6, hb7, hb8, hb9, hb10, hb11⟩ :=
    NewWorkerPool_spec (id ++ ":brewer")
      { input := rt.chans.length + 2, output := rt.chans.length + 1 }
      (brewers.map BeanTask.brew) (brewers.map Brewer.ouncesWaterPerSecond) strategy
      (rtg.go (Goroutine.schedule gp)) (by simp)
  have hstages : newPipelineStages id grinders brewers strategy rt =
      some ({ pipeline := { io := { input := rt.chans.length, output := rt.chans.length + 1 } },
              grinderPool := gp, brewerPool := bp }, rtb.go (Goroutine.schedule bp)) := by
    simp only [newPipelineStages, Runtime.makeChan, List.length_append, List.length_singleton]
    simp only [List.append_assoc] at hg1
    simp only [List.append_assoc]
    rw [hg1]
    simp only [hg2]
    rw [hb1]
  refine ⟨_, _, hstages, by rw [NewPipeline, hstages]; rfl, rfl, hg2, hb2, hg4, hb4, ?_, ?_, ?_,
    hg9, hb9, hg7, hb7, ?_, ?_⟩
  · simp only [Runtime.go, hb6, hg6, List.append_assoc]
  · rw [hg8]; exact List.take_of_length_le (by simp)
  · rw [hb8]; exact List.take_of_length_le (by simp)
  · intro hs
    exact ⟨(hg10 hs).1, (hb10 hs).1⟩
  · intro hs
    obtain ⟨hgi, hgc⟩ := hg11 hs
    obtain ⟨hbi, -⟩ := hb11 hs
    simp only [List.length_map] at hgi hbi
    rw [List.map_append, hgi, hbi]
    simp only [Runtime.go, hgc, List.length_append, List.length_singleton,
      List.length_replicate, List.length_map]
    rw [List.range'_append_1, Nat.add_comm brewers.length]

/-- C3 (refutation): the constructors accept invalid configurations.  `NewWorker` returns a
worker of throughput `0`; `NewWorkerPool` returns a pool for an empty worker list; and
`NewPipeline`, given one grinder of rate `0` and no brewer, returns a pipeline after starting
three goroutines (the grinder's `Work` loop and both `Schedule` loops). -/
theorem invalid_configuration_accepted :
    (NewWorker "w" { input := 0, output := 1 } (BeanTask.grind { gramsPerSecond := 0 }) 0).throughput
      = 0 ∧
    (∃ wp rt1, NewWorkerPool "p" { input := 0, output := 1 } [] []
        SchedulingStrategy.PushRoundRobin emptyRuntime = some (wp, rt1) ∧ wp.workers = []) ∧
    ∃ p rt1, NewPipeline "shop" [{ gramsPerSecond := 0 }] []
        SchedulingStrategy.PushRoundRobin emptyRuntime = some (p, rt1) ∧
      rt1.spawned.length = 3 :=
  ⟨rfl, ⟨_, _, rfl, rfl⟩, ⟨_, _, rfl, rfl⟩⟩

/-- C3 (amended): no configuration is rejected at construction.  `NewWorker` returns a worker
carrying whatever throughput it is given.  `NewWorkerPool` fails only by the index panic when
there are fewer throughputs than tasks; otherwise (empty task list and non-positive throughputs
included) it returns a pool with one worker per task carrying the given throughputs, and has
started one `Work` loop per worker.  `NewPipeline` always returns a pipeline, and has started
exactly: one `Work` loop per grinder (carrying its rate, whatever its sign), the grinder pool's
`Schedule` loop, one `Work` loop per brewer, and the brewer pool's `Schedule` loop. -/
theorem constructors_reject_nothing :
    (∀ (id : String) (io : IOChans) (task : BeanTask) (throughput : Int),
      NewWorker id io task throughput =
        { io := io, id := id, busy := false, task := task, throughput := throughput }) ∧
    (∀ (id : String) (io : IOChans) (tasks : List BeanTask) (thr : List Int)
        (strategy : SchedulingStrategy) (rt : Runtime),
      match NewWorkerPool id io tasks thr strategy rt with
      | some (wp, rt1) =>
        tasks.length ≤ thr.length ∧ wp.workers.length = tasks.length ∧
        wp.workers.map Worker.throughput = thr.take tasks.length ∧
        rt1.spawned = rt.spawned ++ wp.workers.map Goroutine.work
      | none => thr.length < tasks.length) ∧
    ∀ (id : String) (grinders : List Grinder) (brewers : List Brewer)
        (strategy : SchedulingStrategy) (rt : Runtime),
      ∃ (p : Pipeline) (rt1 : Runtime) (grinderPool brewerPool : WorkerPool),
        NewPipeline id grinders brewers strategy rt = some (p, rt1) ∧
        rt1.spawned = rt.spawned ++ grinderPool.workers.map Goroutine.work ++
          [Goroutine.schedule grinderPool] ++ brewerPool.workers.map Goroutine.work ++
          [Goroutine.schedule brewerPool] ∧
        grinderPool.workers.map Worker.throughput = grinders.map Grinder.gramsPerSecond ∧
        brewerPool.workers.map Worker.throughput = brewers.map Brewer.ouncesWaterPerSecond ∧
        rt1.spawned.length = rt.spawned.length + grinders.length + brewers.length + 2 := by
  refine ⟨fun _ _ _ _ => rfl, ?_, ?_⟩
  · intro id io tasks thr strategy rt
    by_cases hlen : tasks.length ≤ thr.length
    · obtain ⟨wp, rt1, h1, -, -, -, h5, h6, -, h8, -⟩ :=
        NewWorkerPool_spec id io tasks thr strategy rt hlen
      rw [h1]
      exact ⟨hlen, h5, h8, h6⟩
    · have hnone : newWorkers id io thr strategy tasks 0 [] rt = none := by
        cases hn : newWorkers id io thr strategy tasks 0 [] rt with
        | none => rfl
        | some r =>
          have hsome : (newWorkers id io thr strategy tasks 0 [] rt).isSome := by rw [hn]; rfl
          rcases (newWorkers_isSome id io thr strategy tasks 0 [] rt).mp hsome with h | h
          · subst h; simp at hlen
          · omega
      simp only [NewWorkerPool, hnone]
      omega
  · intro id grinders brewers strategy rt
    obtain ⟨st, rt1, -, h2, -, -, -, -, -, h8, h9, h10, -⟩ :=
      newPipelineStages_spec id grinders brewers strategy rt
    refine ⟨st.pipeline, rt1, st.grinderPool, st.brewerPool, h2, h8, h9, h10, ?_⟩
    have hg : st.grinderPool.workers.length = grinders.length := by
      simpa using congrArg List.length h9
    have hb : st.brewerPool.workers.length = brewers.length := by
      simpa using congrArg List.length h10
    rw [h8]
    simp only [List.length_append, List.length_map, List.length_singleton, hg, hb]
    omega

/-- C6: for all grinders, brewers and strategy, `NewPipeline` returns a pipeline and starts
the `Schedule` loops of a grinder pool and a brewer pool such that: the pipeline's input is the
grinder pool's input, the grinder pool's output is the brewer pool's input, the brewer pool's
output is the pipeline's output; every worker's output is its pool's output; under the pull
strategy every worker's input is its pool's input; under the two push strategies the workers'
inputs are pairwise distinct (across both pools) and distinct from every pool channel. -/
theorem pipeline_wiring (id : String) (grinders : List Grinder) (brewers : List Brewer)
    (strategy : SchedulingStrategy) (rt : Runtime) :
    ∃ st rt1, newPipelineStages id grinders brewers strategy rt = some (st, rt1) ∧
      NewPipeline id grinders brewers strategy rt = some (st.pipeline, rt1) ∧
      rt1.spawned = rt.spawned ++ st.grinderPool.workers.map Goroutine.work ++
        [Goroutine.schedule st.grinderPool] ++ st.brewerPool.workers.map Goroutine.work ++
        [Goroutine.schedule st.brewerPool] ∧
      st.grinderPool.workers.length = grinders.length ∧
      st.brewerPool.workers.length = brewers.length ∧
      st.grinderPool.strategy = strategy ∧ st.brewerPool.strategy = strategy ∧
      st.pipeline.io.input = st.grinderPool.io.input ∧
      st.grinderPool.io.output = st.brewerPool.io.input ∧
      st.brewerPool.io.output = st.pipeline.io.output ∧
      (∀ w ∈ st.grinderPool.workers, w.io.output = st.grinderPool.io.output) ∧
      (∀ w ∈ st.brewerPool.workers, w.io.output = st.brewerPool.io.output) ∧
      if strategy = SchedulingStrategy.Pull then
        (∀ w ∈ st.grinderPool.workers, w.io.input = st.grinderPool.io.input) ∧
        (∀ w ∈ st.brewerPool.workers, w.io.input = st.brewerPool.io.input)
      else
        ((st.grinderPool.workers ++ st.brewerPool.workers).map fun w => w.io.input).Nodup ∧
        ∀ w ∈ st.grinderPool.workers ++ st.brewerPool.workers,
          w.io.input ≠ st.pipeline.io.input ∧ w.io.input ≠ st.grinderPool.io.output ∧
          w.io.input ≠ st.pipeline.io.output := by
  obtain ⟨st, rt1, h1, h2, h3, h4, h5, h6, h7, h8, h9, h10, -, -, h13, h14, h15, h16⟩ :=
    newPipelineStages_spec id grinders brewers strategy rt
  have hg : st.grinderPool.workers.length = grinders.length := by
    simpa using congrArg List.length h9
  have hb : st.brewerPool.workers.length = brewers.length := by
    simpa using congrArg List.length h10
  refine ⟨st, rt1, h1, h2, h8, hg, hb, h6, h7, by rw [h3, h4], by rw [h4, h5], by rw [h5, h3],
    ?_, ?_, ?_⟩
  · intro w hw; rw [h4]; exact (h13 w hw).1
  · intro w hw; rw [h5]; exact (h14 w hw).1
  · by_cases hs : strategy = SchedulingStrategy.Pull
    · rw [if_pos hs]
      obtain ⟨hgi, hbi⟩ := h15 hs
      exact ⟨fun w hw => by rw [h4]; exact hgi w hw, fun w hw => by rw [h5]; exact hbi w hw⟩
    · rw [if_neg hs]
      have hin := h16 hs
      refine ⟨by rw [hin]; exact List.nodup_range' _ _, ?_⟩
      intro w hw
      have hmem : w.io.input ∈
          ((st.grinderPool.workers ++ st.brewerPool.workers).map fun w => w.io.input) :=
        List.mem_map_of_mem _ hw
      rw [hin, List.mem_range'_1] at hmem
      rw [h3, h4]
      dsimp only
      have h0 : rt.chans.length + 3 ≤ w.io.input := hmem.1
      exact ⟨Nat.ne_of_gt (by omega), Nat.ne_of_gt (by omega), Nat.ne_of_gt (by omega)⟩

/-! ## Execution: what one step does -/

/-- The cases of one scheduler statement. -/
theorem schedStep_cases {p p1 : PoolSt} {input input1 : Channel}
    (h : p.schedStep input = some (input1, p1)) :
    (∃ b, p.pc = .recv ∧ input.recv = some (b, input1) ∧
      p1 = { p with pc := .pick b, taken := p.taken ++ [b] }) ∨
    (∃ b, p.pc = .pick b ∧ p.strategy = .PushRoundRobin ∧ p.cursor < p.workers.length ∧
      input1 = input ∧ p1 = { p with pc := .mark b (some p.cursor) }) ∨
    (∃ b, p.pc = .pick b ∧ p.strategy = .PushRoundRobin ∧ ¬ p.cursor < p.workers.length ∧
      input1 = input ∧ p1 = { p with pc := .crashed }) ∨
    (∃ b, p.pc = .pick b ∧ p.strategy = .PushFastestAvailable ∧
      fastestAvailableWorkerPoll p.structs = none ∧ input1 = input ∧ p1 = p) ∨
    (∃ b r, p.pc = .pick b ∧ p.strategy = .PushFastestAvailable ∧
      fastestAvailableWorkerPoll p.structs = some r ∧ input1 = input ∧
      p1 = { p with pc := .mark b r }) ∨
    (∃ b, p.pc = .mark b none ∧ input1 = input ∧ p1 = { p with pc := .crashed }) ∨
    (∃ b i w, p.pc = .mark b (some i) ∧ p.workers[i]? = some w ∧ input1 = input ∧
      p1 = { p with
        workers := p.workers.set i { w with worker := { w.worker with busy := true } }
        pc := .send b i }) ∨
    (∃ b i w q, p.pc = .send b i ∧ p.workers[i]? = some w ∧ w.queue.send b = some q ∧
      input1 = input ∧
      p1 = { p with
        workers := p.workers.set i { w with queue := q }
        handed := p.handed ++ [(i, b)]
        pc := if p.strategy = SchedulingStrategy.PushRoundRobin then .advance else .recv }) ∨
    (p.pc = .advance ∧ input1 = input ∧
      p1 = { p with cursor := (p.cursor + 1) % p.workers.length, pc := .recv }) := by
  unfold PoolSt.schedStep at h
  split at h
  · split at h
    · cases h
    · rename_i b inp hr
      simp only [Option.some.injEq, Prod.mk.injEq] at h
      obtain ⟨rfl, rfl⟩ := h
      exact Or.inl ⟨b, by assumption, hr, rfl⟩
  · rename_i b hpc
    split at h
    · rename_i hs
      split at h
      · rename_i hc
        simp only [Option.some.injEq, Prod.mk.injEq] at h
        obtain ⟨rfl, rfl⟩ := h
        exact Or.inr (Or.inl ⟨b, hpc, hs, hc, rfl, rfl⟩)
      · rename_i hc
        simp only [Option.some.injEq, Prod.mk.injEq] at h
        obtain ⟨rfl, rfl⟩ := h
        exact Or.inr (Or.inr (Or.inl ⟨b, hpc, hs, hc, rfl, rfl⟩))
    · rename_i hs
      split at h
      · rename_i hpoll
        simp only [Option.some.injEq, Prod.mk.injEq] at h
        obtain ⟨rfl, rfl⟩ := h
        exact Or.inr (Or.inr (Or.inr (Or.inl ⟨b, hpc, hs, hpoll, rfl, rfl⟩)))
      · rename_i r hpoll
        simp only [Option.some.injEq, Prod.mk.injEq] at h
        obtain ⟨rfl, rfl⟩ := h
        exact Or.inr (Or.inr (Or.inr (Or.inr (Or.inl ⟨b, r, hpc, hs, hpoll, rfl, rfl⟩))))
    · cases h
  · rename_i b hpc
    simp only [Option.some.injEq, Prod.mk.injEq] at h
    obtain ⟨rfl, rfl⟩ := h
    exact Or.inr (Or.inr (Or.inr (Or.inr (Or.inr (Or.inl ⟨b, hpc, rfl, rfl⟩)))))
  · rename_i b i hpc
    split at h
    · cases h
    · rename_i w hw
      simp only [Option.some.injEq, Prod.mk.injEq] at h
      obtain ⟨rfl, rfl⟩ := h
      exact Or.inr (Or.inr (Or.inr (Or.inr (Or.inr (Or.inr (Or.inl
        ⟨b, i, w, hpc, hw, rfl, rfl⟩))))))
  · rename_i b i hpc
    split at h
    · cases h
    · rename_i w hw
      split at h
      · cases h
      · rename_i q hq
        simp only [Option.some.injEq, Prod.mk.injEq] at h
        obtain ⟨rfl, rfl⟩ := h
        exact Or.inr (Or.inr (Or.inr (Or.inr (Or.inr (Or.inr (Or.inr (Or.inl
          ⟨b, i, w, q, hpc, hw, hq, rfl, rfl⟩)))))))
  · rename_i hpc
    simp only [Option.some.injEq, Prod.mk.injEq] at h
    obtain ⟨rfl, rfl⟩ := h
    exact Or.inr (Or.inr (Or.inr (Or.inr (Or.inr (Or.inr (Or.inr (Or.inr ⟨hpc, rfl, rfl⟩)))))))
  · cases h
  · cases h

/-- The cases of one worker statement. -/
theorem workStep_cases {p p1 : PoolSt} {i : Nat} {input input1 output output1 : Channel}
    (h : p.workStep i input output = some (input1, output1, p1)) :
    ∃ w w1, p.workers[i]? = some w ∧ p1 = { p with workers := p.workers.set i w1 } ∧
      ((∃ b, p.strategy = .Pull ∧ w.pc = .recv ∧ input.recv = some (b, input1) ∧
          output1 = output ∧ w1 = { w with pc := .call b }) ∨
       (∃ b q, p.strategy ≠ .Pull ∧ w.pc = .recv ∧ w.queue.recv = some (b, q) ∧
          input1 = input ∧ output1 = output ∧ w1 = { w with queue := q, pc := .call b }) ∨
       (∃ b, w.pc = .call b ∧ input1 = input ∧ output1 = output ∧
          w1 = { w with pc := .send (w.worker.task.call b) }) ∨
       (∃ b, w.pc = .send b ∧ output.send b = some output1 ∧ input1 = input ∧
          w1 = { w with pc := .clear }) ∨
       (w.pc = .clear ∧ input1 = input ∧ output1 = output ∧
          w1 = { w with worker := { w.worker with busy := false }, pc := .recv })) := by
  unfold PoolSt.workStep at h
  split at h
  · cases h
  · rename_i w hw
    split at h
    · rename_i hpc
      split at h
      · rename_i hs
        split at h
        · cases h
        · rename_i b inp hr
          simp only [Option.some.injEq, Prod.mk.injEq] at h
          obtain ⟨rfl, rfl, rfl⟩ := h
          exact ⟨w, _, hw, rfl, Or.inl ⟨b, hs, hpc, hr, rfl, rfl⟩⟩
      · rename_i hs
        split at h
        · cases h
        · rename_i b q hr
          simp only [Option.some.injEq, Prod.mk.injEq] at h
          obtain ⟨rfl, rfl, rfl⟩ := h
          exact ⟨w, _, hw, rfl, Or.inr (Or.inl ⟨b, q, hs, hpc, hr, rfl, rfl, rfl⟩)⟩
    · rename_i b hpc
      simp only [Option.some.injEq, Prod.mk.injEq] at h
      obtain ⟨rfl, rfl, rfl⟩ := h
      exact ⟨w, _, hw, rfl, Or.inr (Or.inr (Or.inl ⟨b, hpc, rfl, rfl, rfl⟩))⟩
    · rename_i b hpc
      split at h
      · cases h
      · rename_i out hsend
        simp only [Option.some.injEq, Prod.mk.injEq] at h
        obtain ⟨rfl, rfl, rfl⟩ := h
        exact ⟨w, _, hw, rfl, Or.inr (Or.inr (Or.inr (Or.inl ⟨b, hpc, hsend, rfl, rfl⟩)))⟩
    · rename_i hpc
      simp only [Option.some.injEq, Prod.mk.injEq] at h
      obtain ⟨rfl, rfl, rfl⟩ := h
      exact ⟨w, _, hw, rfl, Or.inr (Or.inr (Or.inr (Or.inr ⟨hpc, rfl, rfl, rfl⟩)))⟩

/-- A worker statement leaves the scheduler's part of the pool alone. -/
theorem workStep_frame {p p1 : PoolSt} {i : Nat} {input input1 output output1 : Channel}
    (h : p.workStep i input output = some (input1, output1, p1)) :
    p1.strategy = p.strategy ∧ p1.cursor = p.cursor ∧ p1.pc = p.pc ∧ p1.taken = p.taken ∧
      p1.handed = p.handed ∧ p1.workers.length = p.workers.length := by
  obtain ⟨w, w1, -, rfl, -⟩ := workStep_cases h
  simp

/-- The cases of one step of a running pool. -/
theorem poolSys_step_cases {s s1 : PoolSys} {a : PoolAct} (h : s.step a = some s1) :
    s.pool.pc ≠ SchedPc.crashed ∧
    ((∃ b input1, a = .push b ∧ s.input.send b = some input1 ∧ s1 = { s with input := input1 }) ∨
     (∃ b output1, a = .pop ∧ s.output.recv = some (b, output1) ∧
        s1 = { s with output := output1 }) ∨
     (∃ input1 p1, a = .sched ∧ s.pool.schedStep s.input = some (input1, p1) ∧
        s1 = { s with input := input1, pool := p1 }) ∨
     (∃ i input1 output1 p1, a = .work i ∧
        s.pool.workStep i s.input s.output = some (input1, output1, p1) ∧
        s1 = { input := input1, output := output1, pool := p1 })) := by
  unfold PoolSys.step at h
  split at h
  · cases h
  · rename_i hc
    refine ⟨hc, ?_⟩
    cases a with
    | push b =>
      simp only [Option.map_eq_some'] at h
      obtain ⟨inp, h1, rfl⟩ := h
      exact Or.inl ⟨b, inp, rfl, h1, rfl⟩
    | pop =>
      simp only [Option.map_eq_some'] at h
      obtain ⟨⟨b, out⟩, h1, rfl⟩ := h
      exact Or.inr (Or.inl ⟨b, out, rfl, h1, rfl⟩)
    | sched =>
      simp only [Option.map_eq_some'] at h
      obtain ⟨⟨inp, p1⟩, h1, rfl⟩ := h
      exact Or.inr (Or.inr (Or.inl ⟨inp, p1, rfl, h1, rfl⟩))
    | work i =>
      simp only [Option.map_eq_some'] at h
      obtain ⟨⟨inp, out, p1⟩, h1, rfl⟩ := h
      exact Or.inr (Or.inr (Or.inr ⟨i, inp, out, p1, rfl, h1, rfl⟩))

/-- A property that holds initially and is kept by every step holds in every reachable state
of a pool. -/
theorem poolSys_reachable_induct {init : PoolSys} (P : PoolSys → Prop) (h0 : P init)
    (hstep : ∀ s s1 a, P s → s.step a = some s1 → P s1) {s : PoolSys}
    (h : PoolSys.Reachable init s) : P s := by
  obtain ⟨acts, hrun⟩ := h
  induction acts generalizing init with
  | nil =>
    simp only [PoolSys.run, Option.some.injEq] at hrun
    subst hrun; exact h0
  | cons a rest ih =>
    simp only [PoolSys.run] at hrun
    cases hs : init.step a with
    | none => rw [hs] at hrun; cases hrun
    | some s1 =>
      rw [hs] at hrun
      exact ih (hstep _ _ _ h0 hs) hrun

/-! ## Round-robin scheduling -/

theorem roundRobinInv_init {wp : WorkerPool} (hs : wp.strategy = .PushRoundRobin)
    (hn : 1 ≤ wp.workers.length) : RoundRobinInv wp.workers.length (PoolSt.init wp) := by
  simp only [RoundRobinInv, PoolSt.init, hs, List.length_map, reduceCtorEq, if_false]
  refine ⟨trivial, trivial, by omega, ?_, ?_⟩
  · intro i w b h; simp at h
  · simp

theorem roundRobinInv_sched {n : Nat} {p p1 : PoolSt} {input input1 : Channel}
    (hinv : RoundRobinInv n p) (h : p.schedStep input = some (input1, p1)) :
    RoundRobinInv n p1 := by
  obtain ⟨hs, hlen, hcur, hlog, hpc⟩ := hinv
  rcases schedStep_cases h with
    ⟨b, hp, hr, rfl⟩ | ⟨b, hp, -, hc, -, rfl⟩ | ⟨b, hp, -, hc, -, rfl⟩ | ⟨b, hp, hfa, -⟩ |
    ⟨b, r, hp, hfa, -⟩ | ⟨b, hp, -, rfl⟩ | ⟨b, i, w, hp, hw, -, rfl⟩ |
    ⟨b, i, w, q, hp, hw, hq, -, rfl⟩ | ⟨hp, -, rfl⟩
  · rw [hp] at hpc
    refine ⟨hs, hlen, hcur, ?_, ?_⟩
    · intro i w b1 hi
      obtain ⟨h1, h2⟩ := hlog i w b1 hi
      refine ⟨h1, ?_⟩
      have hlt : i < p.taken.length := by
        rcases Nat.lt_or_ge i p.taken.length with h | h
        · exact h
        · have : p.taken[i]? = none := by simpa using h
          rw [this] at h2; cases h2
      simp only
      rw [List.getElem?_append_left hlt]; exact h2
    · simp only
      refine ⟨by simp [hpc.1], ?_, hpc.2⟩
      rw [hpc.1]; simp
  · rw [hp] at hpc
    exact ⟨hs, hlen, hcur, hlog, hpc.1, hpc.2.1, hpc.2.2, rfl⟩
  · exact absurd (by omega : p.cursor < p.workers.length) hc
  · rw [hs] at hfa; cases hfa
  · rw [hs] at hfa; cases hfa
  · rw [hp] at hpc; simp at hpc
  · rw [hp] at hpc
    refine ⟨hs, by simpa using hlen, hcur, hlog, ?_⟩
    obtain ⟨h1, h2, h3, h4⟩ := hpc
    simp only [Option.some.injEq] at h4
    exact ⟨h1, h2, h3, h4⟩
  · rw [hp] at hpc
    obtain ⟨h1, h2, h3, h4⟩ := hpc
    refine ⟨hs, by simpa using hlen, hcur, ?_, ?_⟩
    · intro j w1 b1 hj
      simp only at hj
      rcases Nat.lt_or_ge j p.handed.length with hlt | hge
      · rw [List.getElem?_append_left hlt] at hj
        exact hlog j w1 b1 hj
      · rw [List.getElem?_append_right hge] at hj
        have hj0 : j - p.handed.length = 0 := by
          rcases Nat.eq_zero_or_pos (j - p.handed.length) with h | h
          · exact h
          · have : [(i, b)][j - p.handed.length]? = none := by
              simp only [List.getElem?_eq_none_iff, List.length_singleton]; omega
            rw [this] at hj; cases hj
        rw [hj0] at hj
        simp only [List.getElem?_cons_zero, Option.some.injEq, Prod.mk.injEq] at hj
        obtain ⟨rfl, rfl⟩ := hj
        have hjeq : j = p.handed.length := by omega
        subst hjeq
        exact ⟨by rw [h4, h3], h2⟩
    · simp only [hs, if_true, List.length_append, List.length_singleton]
      refine ⟨by omega, ?_⟩
      rw [h3, Nat.mod_add_mod]
  · rw [hp] at hpc
    obtain ⟨h1, h2⟩ := hpc
    refine ⟨hs, hlen, ?_, hlog, ?_⟩
    · simp only; rw [hlen]; exact Nat.mod_lt _ (by omega)
    · simp only; rw [hlen]; exact ⟨h1, h2⟩

theorem roundRobinInv_step {n : Nat} {s s1 : PoolSys} {a : PoolAct}
    (hinv : RoundRobinInv n s.pool) (h : s.step a = some s1) : RoundRobinInv n s1.pool := by
  obtain ⟨-, hcase⟩ := poolSys_step_cases h
  rcases hcase with ⟨b, inp, -, -, rfl⟩ | ⟨b, out, -, -, rfl⟩ | ⟨inp, p1, -, hst, rfl⟩ |
    ⟨i, inp, out, p1, -, hst, rfl⟩
  · exact hinv
  · exact hinv
  · exact roundRobinInv_sched hinv hst
  · obtain ⟨h1, h2, h3, h4, h5, h6⟩ := workStep_frame hst
    simp only [RoundRobinInv, h1, h2, h3, h4, h5, h6]
    exact hinv

/-- A round-robin scheduler can always execute its next statement, except while it waits at its
receive for an empty pool input or at its send for a full private channel. -/
theorem roundRobinInv_progress {n : Nat} {s : PoolSys} (hinv : RoundRobinInv n s.pool) :
    (s.step PoolAct.sched).isSome = true ∨
    (s.pool.pc = SchedPc.recv ∧ s.input.buf = []) ∨
    ∃ b i w, s.pool.pc = SchedPc.send b i ∧ s.pool.workers[i]? = some w ∧
      w.queue.cap ≤ w.queue.buf.length := by
  obtain ⟨hs, hlen, hcur, -, hpc⟩ := hinv
  have hw : ∃ w, s.pool.workers[s.pool.cursor]? = some w :=
    ⟨s.pool.workers[s.pool.cursor], List.getElem?_eq_getElem (by omega)⟩
  obtain ⟨w, hw⟩ := hw
  cases hp : s.pool.pc with
  | recv =>
    cases hbuf : s.input.buf with
    | nil => exact Or.inr (Or.inl ⟨rfl, rfl⟩)
    | cons b rest =>
      left
      simp [PoolSys.step, hp, PoolSt.schedStep, Channel.recv, hbuf]
  | pick b =>
    left
    have hc : s.pool.cursor < s.pool.workers.length := by omega
    simp [PoolSys.step, hp, PoolSt.schedStep, hs, hc]
  | mark b r =>
    left
    rw [hp] at hpc
    obtain ⟨-, -, -, rfl⟩ := hpc
    simp [PoolSys.step, hp, PoolSt.schedStep, hw]
  | send b i =>
    rw [hp] at hpc
    obtain ⟨-, -, -, rfl⟩ := hpc
    by_cases hfull : w.queue.buf.length < w.queue.cap
    · left
      simp [PoolSys.step, hp, PoolSt.schedStep, hw, Channel.send, hfull]
    · exact Or.inr (Or.inr ⟨b, _, w, rfl, hw, by omega⟩)
  | advance =>
    left
    simp [PoolSys.step, hp, PoolSt.schedStep]
  | crashed => rw [hp] at hpc; exact hpc.elim
  | done => rw [hp] at hpc; exact hpc.elim

/-! ## The busy flag -/

theorem getElem?_set_cases {α : Type} {l : List α} {i j : Nat} {x v : α}
    (h : (l.set i x)[j]? = some v) : (j = i ∧ v = x) ∨ (j ≠ i ∧ l[j]? = some v) := by
  rw [List.getElem?_set] at h
  by_cases hij : i = j
  · subst hij
    rw [if_pos rfl] at h
    split at h
    · simp only [Option.some.injEq] at h; exact Or.inl ⟨rfl, h.symm⟩
    · cases h
  · rw [if_neg hij] at h
    exact Or.inr ⟨fun h1 => hij h1.symm, h⟩

theorem getElem?_set_same {α : Type} {l : List α} {i : Nat} {x w : α} (h : l[i]? = some w) :
    (l.set i x)[i]? = some x := by
  have hlt : i < l.length := by
    rcases Nat.lt_or_ge i l.length with h1 | h1
    · exact h1
    · have : l[i]? = none := by simpa using h1
      rw [this] at h; cases h
  exact List.getElem?_set_self hlt

theorem channel_send_buf {c c1 : Channel} {b : BeansPtr} (h : c.send b = some c1) :
    c1.buf = c.buf ++ [b] ∧ c1.cap = c.cap := by
  unfold Channel.send at h
  split at h
  · simp only [Option.some.injEq] at h; subst h; exact ⟨rfl, rfl⟩
  · cases h

theorem channel_recv_buf {c c1 : Channel} {b : BeansPtr} (h : c.recv = some (b, c1)) :
    c.buf = b :: c1.buf ∧ c1.cap = c.cap := by
  unfold Channel.recv at h
  split at h
  · cases h
  · rename_i b1 rest hb
    simp only [Option.some.injEq, Prod.mk.injEq] at h
    obtain ⟨rfl, rfl⟩ := h
    exact ⟨hb, rfl⟩

/-- A poll that returns a worker returns an idle worker of the pool. -/
theorem poll_some_idle {workers : List Worker} {i : Nat}
    (h : fastestAvailableWorkerPoll workers = some (some i)) :
    ∃ w, workers[i]? = some w ∧ w.busy = false := by
  unfold fastestAvailableWorkerPoll at h
  simp only at h
  split at h
  · cases h
  · simp only [Option.some.injEq] at h
    rcases fastestLoop_spec (availableWorkers workers) none 0 with
      ⟨h1, -⟩ | ⟨pre, i1, w1, post, h1, h2, -⟩
    · rw [h1] at h; cases h
    · rw [h2] at h
      simp only [Option.some.injEq] at h
      subst h
      have hmem : (i1, w1) ∈ availableWorkers workers := by rw [h1]; simp
      exact ⟨w1, mem_availableWorkers.mp hmem⟩

theorem fastestInv_init {wp : WorkerPool}
    (hs : wp.strategy = SchedulingStrategy.PushFastestAvailable) :
    FastestInv (PoolSt.init wp) := by
  refine ⟨by simp [PoolSt.init, hs], ?_, ?_, ?_, ?_⟩
  · intro i w hw _
    simp only [PoolSt.init, List.getElem?_map, Option.map_eq_some'] at hw
    obtain ⟨v, -, rfl⟩ := hw
    exact ⟨rfl, rfl⟩
  · intro i w hw hpc
    simp only [PoolSt.init, List.getElem?_map, Option.map_eq_some'] at hw
    obtain ⟨v, -, rfl⟩ := hw
    exact absurd rfl hpc
  · intro i w hw
    simp only [PoolSt.init, List.getElem?_map, Option.map_eq_some'] at hw
    obtain ⟨v, -, rfl⟩ := hw
    simp [Channel.make]
  · simp [PoolSt.init, hs]

theorem fastestInv_sched {p p1 : PoolSt} {input input1 : Channel}
    (hinv : FastestInv p) (h : p.schedStep input = some (input1, p1)) : FastestInv p1 := by
  obtain ⟨hs, h1, h4, h5, hpc⟩ := hinv
  rcases schedStep_cases h with
    ⟨b, hp, hr, rfl⟩ | ⟨b, hp, hrr, -⟩ | ⟨b, hp, hrr, -⟩ | ⟨b, hp, -, -, -, rfl⟩ |
    ⟨b, r, hp, -, hpoll, -, rfl⟩ | ⟨b, hp, -, rfl⟩ | ⟨b, i, w, hp, hw, -, rfl⟩ |
    ⟨b, i, w, q, hp, hw, hq, -, rfl⟩ | ⟨hp, -, rfl⟩
  · exact ⟨hs, h1, h4, h5, trivial⟩
  · rw [hs] at hrr; cases hrr
  · rw [hs] at hrr; cases hrr
  · exact ⟨hs, h1, h4, h5, hpc⟩
  · refine ⟨hs, h1, h4, h5, ?_⟩
    cases r with
    | none => trivial
    | some i =>
      obtain ⟨wk, hwk, hidle⟩ := poll_some_idle hpoll
      simp only [PoolSt.structs, List.getElem?_map, Option.map_eq_some'] at hwk
      obtain ⟨w, hw, rfl⟩ := hwk
      obtain ⟨hq, hwpc⟩ := h1 i w hw hidle
      exact ⟨w, hw, hq, hwpc⟩
  · exact ⟨hs, h1, h4, h5, trivial⟩
  · rw [hp] at hpc
    obtain ⟨w0, hw0, hq0, hpc0⟩ := hpc
    rw [hw] at hw0
    simp only [Option.some.injEq] at hw0
    subst hw0
    refine ⟨hs, ?_, ?_, ?_, ?_⟩
    · intro j v hv hb
      rcases getElem?_set_cases hv with ⟨-, rfl⟩ | ⟨-, hv0⟩
      · simp at hb
      · exact h1 j v hv0 hb
    · intro j v hv hvpc
      rcases getElem?_set_cases hv with ⟨-, rfl⟩ | ⟨-, hv0⟩
      · exact hq0
      · exact h4 j v hv0 hvpc
    · intro j v hv
      rcases getElem?_set_cases hv with ⟨-, rfl⟩ | ⟨-, hv0⟩
      · simp [hq0]
      · exact h5 j v hv0
    · exact ⟨_, getElem?_set_same hw, hq0, hpc0, rfl⟩
  · rw [hp] at hpc
    obtain ⟨w0, hw0, hq0, hpc0, hb0⟩ := hpc
    rw [hw] at hw0
    simp only [Option.some.injEq] at hw0
    subst hw0
    obtain ⟨hqbuf, -⟩ := channel_send_buf hq
    refine ⟨hs, ?_, ?_, ?_, ?_⟩
    · intro j v hv hb
      rcases getElem?_set_cases hv with ⟨-, rfl⟩ | ⟨-, hv0⟩
      · simp only at hb; rw [hb0] at hb; cases hb
      · exact h1 j v hv0 hb
    · intro j v hv hvpc
      rcases getElem?_set_cases hv with ⟨-, rfl⟩ | ⟨-, hv0⟩
      · exact absurd hpc0 hvpc
      · exact h4 j v hv0 hvpc
    · intro j v hv
      rcases getElem?_set_cases hv with ⟨-, rfl⟩ | ⟨-, hv0⟩
      · simp [hqbuf, hq0]
      · exact h5 j v hv0
    · simp [hs]
  · exact ⟨hs, h1, h4, h5, trivial⟩

theorem fastestInv_work {p p1 : PoolSt} {i : Nat} {input input1 output output1 : Channel}
    (hinv : FastestInv p) (h : p.workStep i input output = some (input1, output1, p1)) :
    FastestInv p1 := by
  obtain ⟨hs, h1, h4, h5, hpc⟩ := hinv
  obtain ⟨w, w1, hw, rfl, hcase⟩ := workStep_cases h
  -- the stepping worker is not the one the scheduler has selected, unless it waits at `recv`
  -- with an empty private channel
  have hsel : (w.queue.buf ≠ [] ∨ w.pc ≠ WorkPc.recv) →
      match p.pc with
      | .mark _ (some k) =>
        ∃ v, (p.workers.set i w1)[k]? = some v ∧ v.queue.buf = [] ∧ v.pc = WorkPc.recv
      | .send _ k =>
        ∃ v, (p.workers.set i w1)[k]? = some v ∧ v.queue.buf = [] ∧ v.pc = WorkPc.recv ∧
          v.worker.busy = true
      | _ => True := by
    intro hne
    split
    · rename_i b k hk
      rw [hk] at hpc
      obtain ⟨v, hv, hvq, hvpc⟩ := hpc
      have hki : i ≠ k := by
        intro hik; subst hik
        rw [hw] at hv; simp only [Option.some.injEq] at hv; subst hv
        rcases hne with h | h
        · exact h hvq
        · exact h hvpc
      exact ⟨v, by rw [List.getElem?_set_ne hki]; exact hv, hvq, hvpc⟩
    · rename_i b k hk
      rw [hk] at hpc
      obtain ⟨v, hv, hvq, hvpc, hvb⟩ := hpc
      have hki : i ≠ k := by
        intro hik; subst hik
        rw [hw] at hv; simp only [Option.some.injEq] at hv; subst hv
        rcases hne with h | h
        · exact h hvq
        · exact h hvpc
      exact ⟨v, by rw [List.getElem?_set_ne hki]; exact hv, hvq, hvpc, hvb⟩
    · trivial
  have hbusy : (w.queue.buf ≠ [] ∨ w.pc ≠ WorkPc.recv) → w.worker.busy = true := by
    intro hne
    cases hb : w.worker.busy with
    | true => rfl
    | false =>
      obtain ⟨hq, hwpc⟩ := h1 i w hw hb
      rcases hne with h | h
      · exact absurd hq h
      · exact absurd hwpc h
  rcases hcase with ⟨b, hpull, -⟩ | ⟨b, q, -, hwpc, hrecv, -, -, rfl⟩ |
    ⟨b, hwpc, -, -, rfl⟩ | ⟨b, hwpc, -, -, rfl⟩ | ⟨hwpc, -, -, rfl⟩
  · rw [hs] at hpull; cases hpull
  · obtain ⟨hbuf, -⟩ := channel_recv_buf hrecv
    have hne : w.queue.buf ≠ [] ∨ w.pc ≠ WorkPc.recv := Or.inl (by rw [hbuf]; simp)
    have hqnil : q.buf = [] := by
      have := h5 i w hw
      rw [hbuf] at this
      simp only [List.length_cons] at this
      exact List.length_eq_zero.mp (by omega)
    refine ⟨hs, ?_, ?_, ?_, hsel hne⟩
    · intro j v hv hb
      rcases getElem?_set_cases hv with ⟨-, rfl⟩ | ⟨-, hv0⟩
      · simp only at hb; rw [hbusy hne] at hb; cases hb
      · exact h1 j v hv0 hb
    · intro j v hv hvpc
      rcases getElem?_set_cases hv with ⟨-, rfl⟩ | ⟨-, hv0⟩
      · exact hqnil
      · exact h4 j v hv0 hvpc
    · intro j v hv
      rcases getElem?_set_cases hv with ⟨-, rfl⟩ | ⟨-, hv0⟩
      · simp [hqnil]
      · exact h5 j v hv0
  · have hne : w.queue.buf ≠ [] ∨ w.pc ≠ WorkPc.recv := Or.inr (by rw [hwpc]; simp)
    refine ⟨hs, ?_, ?_, ?_, hsel hne⟩
    · intro j v hv hb
      rcases getElem?_set_cases hv with ⟨-, rfl⟩ | ⟨-, hv0⟩
      · simp only at hb; rw [hbusy hne] at hb; cases hb
      · exact h1 j v hv0 hb
    · intro j v hv hvpc
      rcases getElem?_set_cases hv with ⟨-, rfl⟩ | ⟨-, hv0⟩
      · exact h4 i w hw (by rw [hwpc]; simp)
      · exact h4 j v hv0 hvpc
    · intro j v hv
      rcases getElem?_set_cases hv with ⟨-, rfl⟩ | ⟨-, hv0⟩
      · exact h5 i w hw
      · exact h5 j v hv0
  · have hne : w.queue.buf ≠ [] ∨ w.pc ≠ WorkPc.recv := Or.inr (by rw [hwpc]; simp)
    refine ⟨hs, ?_, ?_, ?_, hsel hne⟩
    · intro j v hv hb
      rcases getElem?_set_cases hv with ⟨-, rfl⟩ | ⟨-, hv0⟩
      · simp only at hb; rw [hbusy hne] at hb; cases hb
      · exact h1 j v hv0 hb
    · intro j v hv hvpc
      rcases getElem?_set_cases hv with ⟨-, rfl⟩ | ⟨-, hv0⟩
      · exact h4 i w hw (by rw [hwpc]; simp)
      · exact h4 j v hv0 hvpc
    · intro j v hv
      rcases getElem?_set_cases hv with ⟨-, rfl⟩ | ⟨-, hv0⟩
      · exact h5 i w hw
      · exact h5 j v hv0
  · have hne : w.queue.buf ≠ [] ∨ w.pc ≠ WorkPc.recv := Or.inr (by rw [hwpc]; simp)
    have hqnil : w.queue.buf = [] := h4 i w hw (by rw [hwpc]; simp)
    refine ⟨hs, ?_, ?_, ?_, hsel hne⟩
    · intro j v hv hb
      rcases getElem?_set_cases hv with ⟨-, rfl⟩ | ⟨-, hv0⟩
      · exact ⟨hqnil, rfl⟩
      · exact h1 j v hv0 hb
    · intro j v hv hvpc
      rcases getElem?_set_cases hv with ⟨-, rfl⟩ | ⟨-, hv0⟩
      · exact hqnil
      · exact h4 j v hv0 hvpc
    · intro j v hv
      rcases getElem?_set_cases hv with ⟨-, rfl⟩ | ⟨-, hv0⟩
      · exact h5 i w hw
      · exact h5 j v hv0

theorem fastestInv_step {s s1 : PoolSys} {a : PoolAct}
    (hinv : FastestInv s.pool) (h : s.step a = some s1) : FastestInv s1.pool := by
  obtain ⟨-, hcase⟩ := poolSys_step_cases h
  rcases hcase with ⟨b, inp, -, -, rfl⟩ | ⟨b, out, -, -, rfl⟩ | ⟨inp, p1, -, hst, rfl⟩ |
    ⟨i, inp, out, p1, -, hst, rfl⟩
  · exact hinv
  · exact hinv
  · exact fastestInv_sched hinv hst
  · exact fastestInv_work hinv hst

/-! ## Round-robin scheduling: the hand-offs happen -/

theorem planFrom_append (n : Nat) (b : BeansPtr) :
    ∀ (items : List BeansPtr) (k : Nat),
      planFrom n k (items ++ [b]) = planFrom n k items ++ [((k + items.length) % n, b)] := by
  intro items
  induction items with
  | nil => intro k; simp [planFrom]
  | cons x xs ih =>
    intro k
    have h1 : k + 1 + xs.length = k + (xs.length + 1) := by omega
    rw [List.cons_append, planFrom, planFrom, ih (k + 1), List.length_cons, h1,
      List.cons_append]

theorem roundRobinPlan_append (n : Nat) (items : List BeansPtr) (b : BeansPtr) :
    roundRobinPlan n (items ++ [b]) = roundRobinPlan n items ++ [(items.length % n, b)] := by
  simp [roundRobinPlan, planFrom_append]

theorem poolSys_run_append (l1 l2 : List PoolAct) :
    ∀ s : PoolSys, s.run (l1 ++ l2) = (s.run l1).bind fun s1 => s1.run l2 := by
  induction l1 with
  | nil => intro s; simp [PoolSys.run]
  | cons a rest ih =>
    intro s
    simp only [List.cons_append, PoolSys.run]
    cases s.step a with
    | none => simp
    | some s1 => simp [ih]

theorem poolSys_reachable_run {init s s1 : PoolSys} (acts : List PoolAct)
    (h : PoolSys.Reachable init s) (hrun : s.run acts = some s1) :
    PoolSys.Reachable init s1 := by
  obtain ⟨pre, hpre⟩ := h
  exact ⟨pre ++ acts, by rw [poolSys_run_append, hpre]; exact hrun⟩

/-- One round of a round-robin pool at rest: the user sends an item, and after four scheduler
statements (receive, choose, set the flag, send) the item sits alone in the private channel
of the worker at the cursor; after the cursor update, the worker's four statements and a
receive by the user, the pool is at rest again. -/
theorem quiescent_round {n inputCap outputCap : Nat} {items : List BeansPtr} {s : PoolSys}
    (hq : Quiescent n inputCap outputCap items s) (hn : 1 ≤ n) (hin : 1 ≤ inputCap)
    (hout : 1 ≤ outputCap) (b : BeansPtr) :
    ∃ s1 s2 w,
      s.run [.push b, .sched, .sched, .sched, .sched] = some s1 ∧
      s1.pool.taken = items ++ [b] ∧ s1.pool.handed = roundRobinPlan n (items ++ [b]) ∧
      s1.pool.workers[items.length % n]? = some w ∧ w.queue.buf = [b] ∧
      s1.run [.sched, .work (items.length % n), .work (items.length % n),
        .work (items.length % n), .work (items.length % n), .pop] = some s2 ∧
      Quiescent n inputCap outputCap (items ++ [b]) s2 := by
  obtain ⟨input, output, ⟨strategy, workers, cursor, pc, taken, handed⟩⟩ := s
  obtain ⟨h1, h2, h3, h4, h5, h6, h7, h8, h9⟩ := hq
  simp only at h1 h2 h3 h4 h5 h6 h7 h8 h9
  subst h1 h2 h3 h6 h7 h8 h9
  have hi : taken.length % n < workers.length := by rw [h4]; exact Nat.mod_lt _ (by omega)
  have hw : workers[taken.length % n]? = some workers[taken.length % n] :=
    List.getElem?_eq_getElem hi
  obtain ⟨hwq, hwpc⟩ := h5 _ (List.getElem_mem hi)
  generalize workers[taken.length % n] = w at hw hwq hwpc
  obtain ⟨wk, wq, wpc⟩ := w
  simp only at hwq hwpc
  subst hwq hwpc
  have hin0 : 0 < inputCap := hin
  have hout0 : 0 < outputCap := hout
  generalize hidx : taken.length % n = i at hi hw
  -- the states the round passes through
  have e1 : (roundRobinSys inputCap outputCap [] [] workers i .recv taken
      (roundRobinPlan n taken)).step (.push b) =
      some (roundRobinSys inputCap outputCap [b] [] workers i .recv taken
        (roundRobinPlan n taken)) := by
    simp [roundRobinSys, PoolSys.step, Channel.send, hin0]
  have e2 : (roundRobinSys inputCap outputCap [b] [] workers i .recv taken
      (roundRobinPlan n taken)).step .sched =
      some (roundRobinSys inputCap outputCap [] [] workers i (.pick b) (taken ++ [b])
        (roundRobinPlan n taken)) := by
    simp [roundRobinSys, PoolSys.step, PoolSt.schedStep, Channel.recv]
  have e3 : (roundRobinSys inputCap outputCap [] [] workers i (.pick b) (taken ++ [b])
      (roundRobinPlan n taken)).step .sched =
      some (roundRobinSys inputCap outputCap [] [] workers i (.mark b (some i)) (taken ++ [b])
        (roundRobinPlan n taken)) := by
    simp [roundRobinSys, PoolSys.step, PoolSt.schedStep, hi]
  have e4 : (roundRobinSys inputCap outputCap [] [] workers i (.mark b (some i))
      (taken ++ [b]) (roundRobinPlan n taken)).step .sched =
      some (roundRobinSys inputCap outputCap [] []
        (workers.set i { worker := { wk with busy := true },
                         queue := Channel.make WorkerInputBufferSize, pc := .recv })
        i (.send b i) (taken ++ [b]) (roundRobinPlan n taken)) := by
    simp [roundRobinSys, PoolSys.step, PoolSt.schedStep, hw]
  have e5 : (roundRobinSys inputCap outputCap [] []
        (workers.set i { worker := { wk with busy := true },
                         queue := Channel.make WorkerInputBufferSize, pc := .recv })
        i (.send b i) (taken ++ [b]) (roundRobinPlan n taken)).step .sched =
      some (roundRobinSys inputCap outputCap [] []
        (workers.set i { worker := { wk with busy := true },
                         queue := { cap := WorkerInputBufferSize, buf := [b] }, pc := .recv })
        i .advance (taken ++ [b]) (roundRobinPlan n taken ++ [(i, b)])) := by
    simp [roundRobinSys, PoolSys.step, PoolSt.schedStep, hi, Channel.send, Channel.make,
      WorkerInputBufferSize]
  have e6 : (roundRobinSys inputCap outputCap [] []
        (workers.set i { worker := { wk with busy := true },
                         queue := { cap := WorkerInputBufferSize, buf := [b] }, pc := .recv })
        i .advance (taken ++ [b]) (roundRobinPlan n taken ++ [(i, b)])).step .sched =
      some (roundRobinSys inputCap outputCap [] []
        (workers.set i { worker := { wk with busy := true },
                         queue := { cap := WorkerInputBufferSize, buf := [b] }, pc := .recv })
        ((i + 1) % n) .recv (taken ++ [b]) (roundRobinPlan n taken ++ [(i, b)])) := by
    simp [roundRobinSys, PoolSys.step, PoolSt.schedStep, h4]
  have e7 : (roundRobinSys inputCap outputCap [] []
        (workers.set i { worker := { wk with busy := true },
                         queue := { cap := WorkerInputBufferSize, buf := [b] }, pc := .recv })
        ((i + 1) % n) .recv (taken ++ [b]) (roundRobinPlan n taken ++ [(i, b)])).step
          (.work i) =
      some (roundRobinSys inputCap outputCap [] []
        (workers.set i { worker := { wk with busy := true },
                         queue := { cap := WorkerInputBufferSize, buf := [] }, pc := .call b })
        ((i + 1) % n) .recv (taken ++ [b]) (roundRobinPlan n taken ++ [(i, b)])) := by
    simp [roundRobinSys, PoolSys.step, PoolSt.workStep, hi, Channel.recv]
  have e8 : (roundRobinSys inputCap outputCap [] []
        (workers.set i { worker := { wk with busy := true },
                         queue := { cap := WorkerInputBufferSize, buf := [] }, pc := .call b })
        ((i + 1) % n) .recv (taken ++ [b]) (roundRobinPlan n taken ++ [(i, b)])).step
          (.work i) =
      some (roundRobinSys inputCap outputCap [] []
        (workers.set i { worker := { wk with busy := true },
                         queue := { cap := WorkerInputBufferSize, buf := [] },
                         pc := .send (wk.task.call b) })
        ((i + 1) % n) .recv (taken ++ [b]) (roundRobinPlan n taken ++ [(i, b)])) := by
    simp [roundRobinSys, PoolSys.step, PoolSt.workStep, hi]
  have e9 : (roundRobinSys inputCap outputCap [] []
        (workers.set i { worker := { wk with busy := true },
                         queue := { cap := WorkerInputBufferSize, buf := [] },
                         pc := .send (wk.task.call b) })
        ((i + 1) % n) .recv (taken ++ [b]) (roundRobinPlan n taken ++ [(i, b)])).step
          (.work i) =
      some (roundRobinSys inputCap outputCap [] [wk.task.call b]
        (workers.set i { worker := { wk with busy := true },
                         queue := { cap := WorkerInputBufferSize, buf := [] }, pc := .clear })
        ((i + 1) % n) .recv (taken ++ [b]) (roundRobinPlan n taken ++ [(i, b)])) := by
    simp [roundRobinSys, PoolSys.step, PoolSt.workStep, hi, Channel.send, hout0]
  have e10 : (roundRobinSys inputCap outputCap [] [wk.task.call b]
        (workers.set i { worker := { wk with busy := true },
                         queue := { cap := WorkerInputBufferSize, buf := [] }, pc := .clear })
        ((i + 1) % n) .recv (taken ++ [b]) (roundRobinPlan n taken ++ [(i, b)])).step
          (.work i) =
      some (roundRobinSys inputCap outputCap [] [wk.task.call b]
        (workers.set i { worker := { wk with busy := false },
                         queue := { cap := WorkerInputBufferSize, buf := [] }, pc := .recv })
        ((i + 1) % n) .recv (taken ++ [b]) (roundRobinPlan n taken ++ [(i, b)])) := by
    simp [roundRobinSys, PoolSys.step, PoolSt.workStep, hi]
  have e11 : (roundRobinSys inputCap outputCap [] [wk.task.call b]
        (workers.set i { worker := { wk with busy := false },
                         queue := { cap := WorkerInputBufferSize, buf := [] }, pc := .recv })
        ((i + 1) % n) .recv (taken ++ [b]) (roundRobinPlan n taken ++ [(i, b)])).step .pop =
      some (roundRobinSys inputCap outputCap [] []
        (workers.set i { worker := { wk with busy := false },
                         queue := { cap := WorkerInputBufferSize, buf := [] }, pc := .recv })
        ((i + 1) % n) .recv (taken ++ [b]) (roundRobinPlan n taken ++ [(i, b)])) := by
    simp [roundRobinSys, PoolSys.step, Channel.recv]
  refine ⟨roundRobinSys inputCap outputCap [] []
        (workers.set i { worker := { wk with busy := true },
                         queue := { cap := WorkerInputBufferSize, buf := [b] }, pc := .recv })
        i .advance (taken ++ [b]) (roundRobinPlan n taken ++ [(i, b)]),
      roundRobinSys inputCap outputCap [] []
        (workers.set i { worker := { wk with busy := false },
                         queue := { cap := WorkerInputBufferSize, buf := [] }, pc := .recv })
        ((i + 1) % n) .recv (taken ++ [b]) (roundRobinPlan n taken ++ [(i, b)]),
      { worker := { wk with busy := true },
        queue := { cap := WorkerInputBufferSize, buf := [b] }, pc := .recv },
      ?_, ?_, ?_, ?_, ?_, ?_, ?_⟩
  · show (roundRobinSys inputCap outputCap [] [] workers i .recv taken
      (roundRobinPlan n taken)).run _ = _
    simp only [PoolSys.run, e1, e2, e3, e4, e5]
  · rfl
  · simp only [roundRobinSys, roundRobinPlan_append, hidx]
  · simp only [roundRobinSys]
    exact List.getElem?_set_self hi
  · rfl
  · simp only [PoolSys.run, e6, e7, e8, e9, e10, e11]
  · refine ⟨rfl, rfl, rfl, by simp [roundRobinSys, h4], ?_, ?_, rfl, rfl, ?_⟩
    · intro w hwmem
      simp only [roundRobinSys] at hwmem
      rcases List.mem_or_eq_of_mem_set hwmem with h | h
      · exact h5 w h
      · subst h; exact ⟨rfl, rfl⟩
    · simp only [roundRobinSys, List.length_append, List.length_singleton]
      rw [← hidx, Nat.mod_add_mod]
    · simp only [roundRobinSys, roundRobinPlan_append, hidx]

/-- From its start a round-robin pool can take any sequence of items through and come to rest
having handed them out as prescribed. -/
theorem roundRobin_reaches_rest (wp : WorkerPool) (inputCap outputCap : Nat)
    (hs : wp.strategy = SchedulingStrategy.PushRoundRobin) (hn : 1 ≤ wp.workers.length)
    (hin : 1 ≤ inputCap) (hout : 1 ≤ outputCap) (items : List BeansPtr) :
    ∃ s, (PoolSys.init wp inputCap outputCap).Reachable s ∧
      Quiescent wp.workers.length inputCap outputCap items s := by
  induction items using List.reverseRecOn with
  | nil =>
    refine ⟨PoolSys.init wp inputCap outputCap, ⟨[], rfl⟩, rfl, rfl, hs, by simp [PoolSys.init,
      PoolSt.init], ?_, by simp [PoolSys.init, PoolSt.init], by simp [PoolSys.init, PoolSt.init,
      hs], rfl, rfl⟩
    intro w hw
    simp only [PoolSys.init, PoolSt.init, List.mem_map] at hw
    obtain ⟨v, -, rfl⟩ := hw
    exact ⟨rfl, rfl⟩
  | append_singleton items b ih =>
    obtain ⟨s, hreach, hq⟩ := ih
    obtain ⟨s1, s2, w, hrun1, -, -, -, -, hrun2, hq2⟩ := quiescent_round hq hn hin hout b
    exact ⟨s2, poolSys_reachable_run _ (poolSys_reachable_run _ hreach hrun1) hrun2, hq2⟩

theorem queueLog_init (wp : WorkerPool) : QueueLog (PoolSt.init wp) := by
  intro j w hw
  simp only [PoolSt.init, List.getElem?_map, Option.map_eq_some'] at hw
  obtain ⟨v, -, rfl⟩ := hw
  exact ⟨[], by simp [PoolSt.init, Channel.make]⟩

theorem queueLog_sched {p p1 : PoolSt} {input input1 : Channel}
    (hinv : QueueLog p) (h : p.schedStep input = some (input1, p1)) : QueueLog p1 := by
  rcases schedStep_cases h with
    ⟨b, hp, hr, rfl⟩ | ⟨b, hp, -, -, -, rfl⟩ | ⟨b, hp, -, -, -, rfl⟩ | ⟨b, hp, -, -, -, rfl⟩ |
    ⟨b, r, hp, -, -, -, rfl⟩ | ⟨b, hp, -, rfl⟩ | ⟨b, i, w, hp, hw, -, rfl⟩ |
    ⟨b, i, w, q, hp, hw, hq, -, rfl⟩ | ⟨hp, -, rfl⟩
  · exact hinv
  · exact hinv
  · exact hinv
  · exact hinv
  · exact hinv
  · exact hinv
  · intro j v hv
    rcases getElem?_set_cases hv with ⟨rfl, rfl⟩ | ⟨-, hv0⟩
    · exact hinv j w hw
    · exact hinv j v hv0
  · intro j v hv
    obtain ⟨hqbuf, -⟩ := channel_send_buf hq
    simp only [List.filter_append, List.map_append]
    rcases getElem?_set_cases hv with ⟨rfl, rfl⟩ | ⟨hne, hv0⟩
    · obtain ⟨earlier, he⟩ := hinv j w hw
      refine ⟨earlier, ?_⟩
      simp only [hqbuf, he]
      simp
    · obtain ⟨earlier, he⟩ := hinv j v hv0
      refine ⟨earlier, ?_⟩
      have hij : ¬ i = j := fun h => hne h.symm
      simp [he, hij]
  · exact hinv

theorem queueLog_work {p p1 : PoolSt} {i : Nat} {input input1 output output1 : Channel}
    (hinv : QueueLog p) (h : p.workStep i input output = some (input1, output1, p1)) :
    QueueLog p1 := by
  obtain ⟨w, w1, hw, rfl, hcase⟩ := workStep_cases h
  intro j v hv
  rcases getElem?_set_cases hv with ⟨rfl, rfl⟩ | ⟨-, hv0⟩
  · obtain ⟨earlier, he⟩ := hinv j w hw
    rcases hcase with ⟨b, -, -, -, -, rfl⟩ | ⟨b, q, -, -, hrecv, -, -, rfl⟩ |
      ⟨b, -, -, -, rfl⟩ | ⟨b, -, -, -, rfl⟩ | ⟨-, -, -, rfl⟩
    · exact ⟨earlier, he⟩
    · obtain ⟨hbuf, -⟩ := channel_recv_buf hrecv
      refine ⟨earlier ++ [b], ?_⟩
      simp only at he ⊢
      rw [he, hbuf]
      simp
    · exact ⟨earlier, he⟩
    · exact ⟨earlier, he⟩
    · exact ⟨earlier, he⟩
  · exact hinv j v hv0

theorem queueLog_step {s s1 : PoolSys} {a : PoolAct}
    (hinv : QueueLog s.pool) (h : s.step a = some s1) : QueueLog s1.pool := by
  obtain ⟨-, hcase⟩ := poolSys_step_cases h
  rcases hcase with ⟨b, inp, -, -, rfl⟩ | ⟨b, out, -, -, rfl⟩ | ⟨inp, p1, -, hst, rfl⟩ |
    ⟨i, inp, out, p1, -, hst, rfl⟩
  · exact hinv
  · exact hinv
  · exact queueLog_sched hinv hst
  · exact queueLog_work hinv hst

/-- C2: for a round-robin pool of `N >= 1` workers (any busy flags, any throughputs).  In every
reachable state the cursor, which starts at `0`, is below `N`, the scheduler has not panicked,
it holds at most the one item it took last, and its `i`-th send (0-indexed) went to worker
`i % N` and carried the `i`-th item it took from the pool's input; the private channel of
every worker `j` holds, in order, the latest of the items so sent to `j`; and the scheduler is
never stuck other than on an empty pool input or on the full private channel of the worker at
the cursor.  The sends do happen: for every sequence of items (channels of capacity at least
one) some schedule lets the scheduler take them all and hand them out as prescribed, and right
after the send of the last one, item number `i`, that item sits in the private channel of
worker `i % N`. -/
theorem round_robin_determinism (wp : WorkerPool) (inputCap outputCap : Nat)
    (hs : wp.strategy = SchedulingStrategy.PushRoundRobin) (hn : 1 ≤ wp.workers.length)
    (s : PoolSys) (hreach : (PoolSys.init wp inputCap outputCap).Reachable s) :
    (PoolSys.init wp inputCap outputCap).pool.cursor = 0 ∧
    s.pool.cursor < wp.workers.length ∧ s.pool.workers.length = wp.workers.length ∧
    s.pool.pc ≠ SchedPc.crashed ∧
    s.pool.handed.length ≤ s.pool.taken.length ∧
    s.pool.taken.length ≤ s.pool.handed.length + 1 ∧
    (∀ i w b, s.pool.handed[i]? = some (w, b) →
      w = i % wp.workers.length ∧ s.pool.taken[i]? = some b) ∧
    (∀ (j : Nat) (w : WorkerSt), s.pool.workers[j]? = some w →
      ∃ earlier : List BeansPtr,
        (s.pool.handed.filter fun e => e.1 = j).map Prod.snd = earlier ++ w.queue.buf) ∧
    ((s.step PoolAct.sched).isSome = true ∨
      (s.pool.pc = SchedPc.recv ∧ s.input.buf = []) ∨
      ∃ b i w, s.pool.pc = SchedPc.send b i ∧ s.pool.workers[i]? = some w ∧
        w.queue.cap ≤ w.queue.buf.length) ∧
    (1 ≤ inputCap → 1 ≤ outputCap → ∀ (items : List BeansPtr) (b : BeansPtr),
      ∃ (s1 : PoolSys) (w : WorkerSt),
        (PoolSys.init wp inputCap outputCap).Reachable s1 ∧
        s1.pool.taken = items ++ [b] ∧
        s1.pool.handed = roundRobinPlan wp.workers.length (items ++ [b]) ∧
        s1.pool.workers[items.length % wp.workers.length]? = some w ∧ w.queue.buf = [b]) := by
  have hinv : RoundRobinInv wp.workers.length s.pool :=
    poolSys_reachable_induct (fun s => RoundRobinInv wp.workers.length s.pool)
      (roundRobinInv_init hs hn) (fun _ _ _ hi hst => roundRobinInv_step hi hst) hreach
  have hlogq : QueueLog s.pool :=
    poolSys_reachable_induct (fun s => QueueLog s.pool) (queueLog_init wp)
      (fun _ _ _ hi hst => queueLog_step hi hst) hreach
  have hprog := roundRobinInv_progress hinv
  obtain ⟨-, hlen, hcur, hlog, hpc⟩ := hinv
  refine ⟨rfl, hcur, hlen, ?_, ?_, ?_, hlog, hlogq, hprog, ?_⟩
  · intro hc; rw [hc] at hpc; exact hpc
  · cases hp : s.pool.pc <;> rw [hp] at hpc <;> first | omega | exact hpc.elim
  · cases hp : s.pool.pc <;> rw [hp] at hpc <;> first | omega | exact hpc.elim
  · intro hin hout items b
    obtain ⟨s0, hreach0, hq⟩ :=
      roundRobin_reaches_rest wp inputCap outputCap hs hn hin hout items
    obtain ⟨s1, -, w, hrun1, htaken, hhanded, hw, hbuf, -, -⟩ :=
      quiescent_round hq hn hin hout b
    exact ⟨s1, w, poolSys_reachable_run _ hreach0 hrun1, htaken, hhanded, hw, hbuf⟩

theorem busyHasWork_init {wp : WorkerPool} (hidle : ∀ w ∈ wp.workers, w.busy = false) :
    BusyHasWork (PoolSt.init wp) := by
  intro i w hw hb
  simp only [PoolSt.init, List.getElem?_map, Option.map_eq_some'] at hw
  obtain ⟨v, hv, rfl⟩ := hw
  simp only at hb
  rw [hidle v (List.getElem?_mem hv)] at hb
  cases hb

theorem busyHasWork_sched {p p1 : PoolSt} {input input1 : Channel}
    (hinv : BusyHasWork p) (h : p.schedStep input = some (input1, p1)) : BusyHasWork p1 := by
  have keep : ∀ {pc1 : SchedPc} {j : Nat} {v : WorkerSt}, (∀ b k, p.pc ≠ SchedPc.send b k) →
      p.workers[j]? = some v → v.worker.busy = true →
      (∃ b, pc1 = SchedPc.send b j) ∨ v.queue.buf ≠ [] ∨ v.pc ≠ WorkPc.recv := by
    intro pc1 j v hns hv hb
    rcases hinv j v hv hb with ⟨b, hb1⟩ | h2
    · exact absurd hb1 (hns b j)
    · exact Or.inr h2
  rcases schedStep_cases h with
    ⟨b, hp, hr, rfl⟩ | ⟨b, hp, -, -, -, rfl⟩ | ⟨b, hp, -, -, -, rfl⟩ | ⟨b, hp, -, -, -, rfl⟩ |
    ⟨b, r, hp, -, -, -, rfl⟩ | ⟨b, hp, -, rfl⟩ | ⟨b, i, w, hp, hw, -, rfl⟩ |
    ⟨b, i, w, q, hp, hw, hq, -, rfl⟩ | ⟨hp, -, rfl⟩
  · intro j v hv hb; exact keep (by rw [hp]; simp) hv hb
  · intro j v hv hb; exact keep (by rw [hp]; simp) hv hb
  · intro j v hv hb; exact keep (by rw [hp]; simp) hv hb
  · exact hinv
  · intro j v hv hb; exact keep (by rw [hp]; simp) hv hb
  · intro j v hv hb; exact keep (by rw [hp]; simp) hv hb
  · intro j v hv hb
    rcases getElem?_set_cases hv with ⟨rfl, rfl⟩ | ⟨-, hv0⟩
    · exact Or.inl ⟨b, rfl⟩
    · exact keep (by rw [hp]; simp) hv0 hb
  · intro j v hv hb
    obtain ⟨hqbuf, -⟩ := channel_send_buf hq
    rcases getElem?_set_cases hv with ⟨rfl, rfl⟩ | ⟨hne, hv0⟩
    · exact Or.inr (Or.inl (by simp [hqbuf]))
    · rcases hinv j v hv0 hb with ⟨b1, hb1⟩ | h2
      · rw [hp] at hb1
        simp only [SchedPc.send.injEq] at hb1
        exact absurd hb1.2.symm hne
      · exact Or.inr h2
  · intro j v hv hb; exact keep (by rw [hp]; simp) hv hb

theorem busyHasWork_work {p p1 : PoolSt} {i : Nat} {input input1 output output1 : Channel}
    (hinv : BusyHasWork p) (h : p.workStep i input output = some (input1, output1, p1)) :
    BusyHasWork p1 := by
  obtain ⟨w, w1, hw, rfl, hcase⟩ := workStep_cases h
  intro j v hv hb
  rcases getElem?_set_cases hv with ⟨rfl, rfl⟩ | ⟨-, hv0⟩
  · rcases hcase with ⟨b, -, -, -, -, rfl⟩ | ⟨b, q, -, -, -, -, -, rfl⟩ |
      ⟨b, -, -, -, rfl⟩ | ⟨b, -, -, -, rfl⟩ | ⟨-, -, -, rfl⟩
    · exact Or.inr (Or.inr (by simp))
    · exact Or.inr (Or.inr (by simp))
    · exact Or.inr (Or.inr (by simp))
    · exact Or.inr (Or.inr (by simp))
    · simp at hb
  · exact hinv j v hv0 hb

theorem busyHasWork_step {s s1 : PoolSys} {a : PoolAct}
    (hinv : BusyHasWork s.pool) (h : s.step a = some s1) : BusyHasWork s1.pool := by
  obtain ⟨-, hcase⟩ := poolSys_step_cases h
  rcases hcase with ⟨b, inp, -, -, rfl⟩ | ⟨b, out, -, -, rfl⟩ | ⟨inp, p1, -, hst, rfl⟩ |
    ⟨i, inp, out, p1, -, hst, rfl⟩
  · exact hinv
  · exact hinv
  · exact busyHasWork_sched hinv hst
  · exact busyHasWork_work hinv hst

/-- A schedule that can be run in full leads to a reachable state. -/
theorem poolSys_reachable_of_run (init : PoolSys) (acts : List PoolAct)
    (h : (init.run acts).isSome = true) : PoolSys.Reachable init ((init.run acts).getD init) := by
  refine ⟨acts, ?_⟩
  cases hr : init.run acts with
  | none => rw [hr] at h; cases h
  | some s => rfl

theorem pushPool_new (strategy : SchedulingStrategy) (hs : strategy ≠ SchedulingStrategy.Pull) :
    ∃ rt1, NewWorkerPool "pool" { input := 0, output := 1 }
      [BeanTask.grind { gramsPerSecond := 5 }, BeanTask.grind { gramsPerSecond := 10 }] [5, 10]
      strategy poolRuntime = some (pushPool strategy, rt1) := by
  cases strategy with
  | PushRoundRobin => exact ⟨_, rfl⟩
  | PushFastestAvailable => exact ⟨_, rfl⟩
  | Pull => exact absurd rfl hs

theorem roundRobinState_reachable :
    (PoolSys.init (pushPool .PushRoundRobin) 100 100).Reachable roundRobinState :=
  poolSys_reachable_of_run _ roundRobinSchedule (by decide)

theorem fastestState_reachable :
    (PoolSys.init (pushPool .PushFastestAvailable) 100 100).Reachable fastestState :=
  poolSys_reachable_of_run _ fastestSchedule (by decide)

/-- C4 (refutation): two reachable states of pools built by `NewWorkerPool`.  Under round-robin,
after worker 0 finished the first of its two assigned items, its flag is false while the other
item still sits in its private channel.  Under fastest-available, after worker 1 sent its only
item to the output and before its `busy.Store(false)`, its flag is true while nothing is
assigned to it: its private channel is empty, it holds no item, and the scheduler holds
none. -/
theorem busy_flag_counterexample :
    (∃ w, (PoolSys.init (pushPool .PushRoundRobin) 100 100).Reachable roundRobinState ∧
      roundRobinState.pool.workers[0]? = some w ∧ w.queue.buf = [rawBeans 2] ∧
      w.worker.busy = false) ∧
    (∃ w, (PoolSys.init (pushPool .PushFastestAvailable) 100 100).Reachable fastestState ∧
      fastestState.pool.workers[1]? = some w ∧ w.worker.busy = true ∧
      w.queue.buf = [] ∧ w.pc = WorkPc.clear ∧ fastestState.pool.pc = SchedPc.recv ∧
      fastestState.output.buf.map BeansPtr.addr = [0]) :=
  ⟨⟨_, roundRobinState_reachable, rfl, rfl, rfl⟩,
   ⟨_, fastestState_reachable, rfl, rfl, rfl, rfl, rfl, rfl⟩⟩

/-- C4 (amended): for a pool built by `NewWorkerPool`, statements interleaved atomically.
Under fastest-available, in every reachable state a worker's flag is true whenever an item
assigned to it is unfinished (in its private channel, or received by it and not yet sent to
the output).  Under every strategy, in every reachable state a worker whose flag is true has
work or is about to clear the flag: the scheduler has set the flag and is about to send it an
item, or an item is in its private channel, or it holds an item, or it has sent its result and
stands before `busy.Store(false)`. -/
theorem busy_flag_consistency (id : String) (io : IOChans) (tasks : List BeanTask)
    (thr : List Int) (strategy : SchedulingStrategy) (rt rt1 : Runtime) (wp : WorkerPool)
    (hnew : NewWorkerPool id io tasks thr strategy rt = some (wp, rt1))
    (inputCap outputCap : Nat) (s : PoolSys)
    (hreach : (PoolSys.init wp inputCap outputCap).Reachable s) :
    (strategy = SchedulingStrategy.PushFastestAvailable →
      ∀ (i : Nat) (w : WorkerSt), s.pool.workers[i]? = some w →
        (w.queue.buf ≠ [] ∨ (∃ b, w.pc = WorkPc.call b) ∨ (∃ b, w.pc = WorkPc.send b)) →
        w.worker.busy = true) ∧
    ∀ (i : Nat) (w : WorkerSt), s.pool.workers[i]? = some w → w.worker.busy = true →
      (∃ b, s.pool.pc = SchedPc.send b i) ∨ w.queue.buf ≠ [] ∨ (∃ b, w.pc = WorkPc.call b) ∨
        (∃ b, w.pc = WorkPc.send b) ∨ w.pc = WorkPc.clear := by
  obtain ⟨hstrat, hidle⟩ := NewWorkerPool_idle hnew
  constructor
  · intro hs
    subst hs
    have hinv : FastestInv s.pool :=
      poolSys_reachable_induct (fun s => FastestInv s.pool) (fastestInv_init hstrat)
        (fun _ _ _ hi hst => fastestInv_step hi hst) hreach
    obtain ⟨-, h1, -⟩ := hinv
    intro i w hw hwork
    cases hb : w.worker.busy with
    | true => rfl
    | false =>
      obtain ⟨hq, hpc⟩ := h1 i w hw hb
      rcases hwork with h | ⟨b, h⟩ | ⟨b, h⟩
      · exact absurd hq h
      · rw [hpc] at h; cases h
      · rw [hpc] at h; cases h
  · have hinv : BusyHasWork s.pool :=
      poolSys_reachable_induct (fun s => BusyHasWork s.pool) (busyHasWork_init hidle)
        (fun _ _ _ hi hst => busyHasWork_step hi hst) hreach
    intro i w hw hb
    rcases hinv i w hw hb with h | h | h
    · exact Or.inl h
    · exact Or.inr (Or.inl h)
    · right; right
      cases hpc : w.pc with
      | recv => exact absurd hpc h
      | call b => exact Or.inl ⟨b, rfl⟩
      | send b => exact Or.inr (Or.inl ⟨b, rfl⟩)
      | clear => exact Or.inr (Or.inr rfl)

/-! ## Conservation of items in a pipeline -/

theorem beanTask_call_addr (t : BeanTask) (b : BeansPtr) : (t.call b).addr = b.addr := by
  cases t <;> rfl

/-- Replacing one entry of a list changes the total count of an address in the entries' holdings
by the change in that entry. -/
theorem count_flatten_set {α : Type} (f : α → List Nat) (a : Nat) :
    ∀ (l : List α) (i : Nat) (w w1 : α), l[i]? = some w →
      ((l.set i w1).map f).flatten.count a + (f w).count a =
        ((l.map f).flatten).count a + (f w1).count a := by
  intro l
  induction l with
  | nil => intro i w w1 h; simp at h
  | cons x xs ih =>
    intro i w w1 h
    cases i with
    | zero =>
      simp only [List.getElem?_cons_zero, Option.some.injEq] at h
      subst h
      simp only [List.set_cons_zero, List.map_cons, List.flatten_cons, List.count_append]
      omega
    | succ k =>
      simp only [List.getElem?_cons_succ] at h
      have := ih k w w1 h
      simp only [List.set_cons_succ, List.map_cons, List.flatten_cons, List.count_append]
      omega

/-- A scheduler statement that does not panic moves items only between the pool's input
channel and the pool. -/
theorem schedStep_count {p p1 : PoolSt} {input input1 : Channel}
    (h : p.schedStep input = some (input1, p1)) (hok : p1.pc ≠ SchedPc.crashed) (a : Nat) :
    (input1.buf.map BeansPtr.addr).count a + p1.held.count a =
      (input.buf.map BeansPtr.addr).count a + p.held.count a := by
  rcases schedStep_cases h with
    ⟨b, hp, hr, rfl⟩ | ⟨b, hp, -, -, rfl, rfl⟩ | ⟨b, hp, -, -, rfl, rfl⟩ |
    ⟨b, hp, -, -, rfl, rfl⟩ | ⟨b, r, hp, -, -, rfl, rfl⟩ | ⟨b, hp, rfl, rfl⟩ |
    ⟨b, i, w, hp, hw, rfl, rfl⟩ | ⟨b, i, w, q, hp, hw, hq, rfl, rfl⟩ | ⟨hp, rfl, rfl⟩
  · obtain ⟨hbuf, -⟩ := channel_recv_buf hr
    simp only [PoolSt.held, hp, hbuf, List.map_cons, List.count_cons, List.count_append,
      List.count_nil]
    omega
  · simp only [PoolSt.held, hp]
  · exact absurd rfl hok
  · rfl
  · simp only [PoolSt.held, hp]
  · exact absurd rfl hok
  · have := count_flatten_set WorkerSt.held a p.workers i w
      { w with worker := { w.worker with busy := true } } hw
    simp only [PoolSt.held, hp, List.count_append]
    simp only [WorkerSt.held] at this
    omega
  · obtain ⟨hqbuf, -⟩ := channel_send_buf hq
    have := count_flatten_set WorkerSt.held a p.workers i w { w with queue := q } hw
    simp only [WorkerSt.held, hqbuf, List.map_append, List.count_append, List.map_cons,
      List.map_nil, List.count_cons, List.count_nil] at this
    by_cases hs : p.strategy = SchedulingStrategy.PushRoundRobin
    · simp only [PoolSt.held, hp, hs, if_true, List.count_append, List.count_cons,
        List.count_nil]
      omega
    · simp only [PoolSt.held, hp, hs, if_false, List.count_append, List.count_cons,
        List.count_nil]
      omega
  · simp only [PoolSt.held, hp]

/-- A worker statement moves items only between the pool's two channels and the pool. -/
theorem workStep_count {p p1 : PoolSt} {i : Nat} {input input1 output output1 : Channel}
    (h : p.workStep i input output = some (input1, output1, p1)) (a : Nat) :
    (input1.buf.map BeansPtr.addr).count a + (output1.buf.map BeansPtr.addr).count a +
        p1.held.count a =
      (input.buf.map BeansPtr.addr).count a + (output.buf.map BeansPtr.addr).count a +
        p.held.count a := by
  obtain ⟨w, w1, hw, rfl, hcase⟩ := workStep_cases h
  have hset := count_flatten_set WorkerSt.held a p.workers i w w1 hw
  simp only [PoolSt.held, List.count_append]
  rcases hcase with ⟨b, -, hwpc, hrecv, rfl, rfl⟩ | ⟨b, q, -, hwpc, hrecv, rfl, rfl, rfl⟩ |
    ⟨b, hwpc, rfl, rfl, rfl⟩ | ⟨b, hwpc, hsend, rfl, rfl⟩ | ⟨hwpc, rfl, rfl, rfl⟩
  · obtain ⟨hbuf, -⟩ := channel_recv_buf hrecv
    simp only [WorkerSt.held, hwpc, hbuf, List.map_cons, List.count_append, List.count_cons,
      List.count_nil] at hset ⊢
    omega
  · obtain ⟨hbuf, -⟩ := channel_recv_buf hrecv
    simp only [WorkerSt.held, hwpc, hbuf, List.map_cons, List.count_append, List.count_cons,
      List.count_nil] at hset ⊢
    omega
  · simp only [WorkerSt.held, hwpc, beanTask_call_addr, List.count_append] at hset ⊢
    omega
  · obtain ⟨hbuf, -⟩ := channel_send_buf hsend
    simp only [WorkerSt.held, hwpc, hbuf, List.map_append, List.map_cons, List.map_nil,
      List.count_append, List.count_cons, List.count_nil] at hset ⊢
    omega
  · simp only [WorkerSt.held, hwpc, List.count_append] at hset ⊢
    omega

/-- The cases of one step of a running pipeline. -/
theorem pipeSt_step_cases {s s1 : PipeSt} {act : PipeAct} (h : s.step act = some s1) :
    (∃ b input1, act = .push b ∧ b.addr ∉ s.pushed.map BeansPtr.addr ∧
        s.input.send b = some input1 ∧
        s1 = { s with input := input1, pushed := s.pushed ++ [b] }) ∨
    (∃ b output1, act = .pop ∧ s.output.recv = some (b, output1) ∧
        s1 = { s with output := output1, popped := s.popped ++ [b] }) ∨
    (∃ input1 p1, act = .grindSched ∧ s.grinders.schedStep s.input = some (input1, p1) ∧
        s1 = { s with input := input1, grinders := p1 }) ∨
    (∃ i input1 mid1 p1, act = .grindWork i ∧
        s.grinders.workStep i s.input s.mid = some (input1, mid1, p1) ∧
        s1 = { s with input := input1, mid := mid1, grinders := p1 }) ∨
    (∃ mid1 p1, act = .brewSched ∧ s.brewers.schedStep s.mid = some (mid1, p1) ∧
        s1 = { s with mid := mid1, brewers := p1 }) ∨
    (∃ i mid1 output1 p1, act = .brewWork i ∧
        s.brewers.workStep i s.mid s.output = some (mid1, output1, p1) ∧
        s1 = { s with mid := mid1, output := output1, brewers := p1 }) := by
  unfold PipeSt.step at h
  split at h
  · cases h
  · cases act with
    | push b =>
      simp only at h
      split at h
      · cases h
      · rename_i hfresh
        simp only [Option.map_eq_some'] at h
        obtain ⟨inp, h1, rfl⟩ := h
        exact Or.inl ⟨b, inp, rfl, hfresh, h1, rfl⟩
    | pop =>
      simp only [Option.map_eq_some'] at h
      obtain ⟨⟨b, out⟩, h1, rfl⟩ := h
      exact Or.inr (Or.inl ⟨b, out, rfl, h1, rfl⟩)
    | grindSched =>
      simp only [Option.map_eq_some'] at h
      obtain ⟨⟨inp, p1⟩, h1, rfl⟩ := h
      exact Or.inr (Or.inr (Or.inl ⟨inp, p1, rfl, h1, rfl⟩))
    | grindWork i =>
      simp only [Option.map_eq_some'] at h
      obtain ⟨⟨inp, mid, p1⟩, h1, rfl⟩ := h
      exact Or.inr (Or.inr (Or.inr (Or.inl ⟨i, inp, mid, p1, rfl, h1, rfl⟩)))
    | brewSched =>
      simp only [Option.map_eq_some'] at h
      obtain ⟨⟨mid, p1⟩, h1, rfl⟩ := h
      exact Or.inr (Or.inr (Or.inr (Or.inr (Or.inl ⟨mid, p1, rfl, h1, rfl⟩))))
    | brewWork i =>
      simp only [Option.map_eq_some'] at h
      obtain ⟨⟨mid, out, p1⟩, h1, rfl⟩ := h
      exact Or.inr (Or.inr (Or.inr (Or.inr (Or.inr ⟨i, mid, out, p1, rfl, h1, rfl⟩))))

/-- Every step of a pipeline without a panic keeps the books balanced: what is in some place
plus what was received from the output is what was sent to the input; and no address is sent
twice. -/
theorem pipeSt_step_balance {s s1 : PipeSt} {act : PipeAct} (h : s.step act = some s1)
    (hok : s1.grinders.pc ≠ SchedPc.crashed ∧ s1.brewers.pc ≠ SchedPc.crashed)
    (hinv : (∀ a, s.places.count a + (s.popped.map BeansPtr.addr).count a =
        (s.pushed.map BeansPtr.addr).count a) ∧ (s.pushed.map BeansPtr.addr).Nodup) :
    (∀ a, s1.places.count a + (s1.popped.map BeansPtr.addr).count a =
        (s1.pushed.map BeansPtr.addr).count a) ∧ (s1.pushed.map BeansPtr.addr).Nodup := by
  obtain ⟨hbal, hnd⟩ := hinv
  rcases pipeSt_step_cases h with ⟨b, inp, -, hfresh, hsend, rfl⟩ | ⟨b, out, -, hrecv, rfl⟩ |
    ⟨inp, p1, -, hst, rfl⟩ | ⟨i, inp, mid, p1, -, hst, rfl⟩ | ⟨mid, p1, -, hst, rfl⟩ |
    ⟨i, mid, out, p1, -, hst, rfl⟩
  · obtain ⟨hbuf, -⟩ := channel_send_buf hsend
    constructor
    · intro a
      have := hbal a
      simp only [PipeSt.places, hbuf, List.map_append, List.map_cons, List.map_nil,
        List.count_append, List.count_cons, List.count_nil] at this ⊢
      omega
    · rw [List.map_append, List.nodup_append]
      refine ⟨hnd, by simp, ?_⟩
      intro x hx hx1
      simp only [List.map_cons, List.map_nil, List.mem_singleton] at hx1
      subst hx1
      exact hfresh hx
  · obtain ⟨hbuf, -⟩ := channel_recv_buf hrecv
    refine ⟨?_, hnd⟩
    intro a
    have := hbal a
    simp only [PipeSt.places, hbuf, List.map_append, List.map_cons, List.map_nil,
      List.count_append, List.count_cons, List.count_nil] at this ⊢
    omega
  · refine ⟨?_, hnd⟩
    intro a
    have := hbal a
    have hc := schedStep_count hst hok.1 a
    simp only [PipeSt.places, List.count_append] at this ⊢
    omega
  · refine ⟨?_, hnd⟩
    intro a
    have := hbal a
    have hc := workStep_count hst a
    simp only [PipeSt.places, List.count_append] at this ⊢
    omega
  · refine ⟨?_, hnd⟩
    intro a
    have := hbal a
    have hc := schedStep_count hst hok.2 a
    simp only [PipeSt.places, List.count_append] at this ⊢
    omega
  · refine ⟨?_, hnd⟩
    intro a
    have := hbal a
    have hc := workStep_count hst a
    simp only [PipeSt.places, List.count_append] at this ⊢
    omega

theorem poolSt_init_held (wp : WorkerPool) : (PoolSt.init wp).held = [] := by
  simp only [PoolSt.held, PoolSt.init]
  have hw : ∀ l : List Worker, ((l.map fun w =>
      ({ worker := w, queue := Channel.make WorkerInputBufferSize, pc := WorkPc.recv } :
        WorkerSt)).map WorkerSt.held).flatten = [] := by
    intro l
    induction l with
    | nil => rfl
    | cons x xs ih => simp [WorkerSt.held, Channel.make, ih]
  rw [hw]
  by_cases hs : wp.strategy = SchedulingStrategy.Pull <;> simp [hs]

/-- A step is only taken while no scheduler has panicked. -/
theorem pipeSt_step_ok {s s1 : PipeSt} {act : PipeAct} (h : s.step act = some s1) :
    s.grinders.pc ≠ SchedPc.crashed ∧ s.brewers.pc ≠ SchedPc.crashed := by
  unfold PipeSt.step at h
  split at h
  · cases h
  · rename_i hc
    exact not_or.mp hc

/-- The books of a pipeline are balanced in every reachable state without a panic. -/
theorem pipeSt_reachable_balance {init s : PipeSt} (h : PipeSt.Reachable init s)
    (hok : s.grinders.pc ≠ SchedPc.crashed ∧ s.brewers.pc ≠ SchedPc.crashed)
    (h0 : (∀ a, init.places.count a + (init.popped.map BeansPtr.addr).count a =
        (init.pushed.map BeansPtr.addr).count a) ∧ (init.pushed.map BeansPtr.addr).Nodup) :
    (∀ a, s.places.count a + (s.popped.map BeansPtr.addr).count a =
        (s.pushed.map BeansPtr.addr).count a) ∧ (s.pushed.map BeansPtr.addr).Nodup := by
  obtain ⟨acts, hrun⟩ := h
  induction acts generalizing init with
  | nil =>
    simp only [PipeSt.run, Option.some.injEq] at hrun
    subst hrun; exact h0
  | cons act rest ih =>
    simp only [PipeSt.run] at hrun
    cases hs : init.step act with
    | none => rw [hs] at hrun; cases hrun
    | some s1 =>
      rw [hs] at hrun
      have hok1 : s1.grinders.pc ≠ SchedPc.crashed ∧ s1.brewers.pc ≠ SchedPc.crashed := by
        cases rest with
        | nil =>
          simp only [PipeSt.run, Option.some.injEq] at hrun
          subst hrun; exact hok
        | cons act2 rest2 =>
          simp only [PipeSt.run] at hrun
          cases hs2 : s1.step act2 with
          | none => rw [hs2] at hrun; cases hrun
          | some s2 => exact pipeSt_step_ok hs2
      exact ih (pipeSt_step_balance hs hok1 h0) hrun

theorem pipeSt_reachable_of_run (init : PipeSt) (acts : List PipeAct)
    (h : (init.run acts).isSome = true) : PipeSt.Reachable init ((init.run acts).getD init) := by
  refine ⟨acts, ?_⟩
  cases hr : init.run acts with
  | none => rw [hr] at h; cases h
  | some s => rfl

theorem fastestStages_new :
    ∃ rt1, newPipelineStages "shop" [{ gramsPerSecond := 5 }] [{ ouncesWaterPerSecond := 100 }]
      SchedulingStrategy.PushFastestAvailable emptyRuntime = some (fastestStages, rt1) :=
  ⟨_, rfl⟩

theorem pipelineState_reachable : (PipeSt.init fastestStages).Reachable pipelineState :=
  pipeSt_reachable_of_run _ pipelineSchedule (by decide)

/-- C5: in every reachable state of a pipeline in which no scheduler has panicked, whatever its
two pools and their strategies (round-robin, fastest-available or pull), every item sent to the
pipeline input and not yet received from the pipeline output is in exactly one place (one of
the three channels, a worker's private channel, a worker's hands or a scheduler's hands), and
every other address is in no place; no address is sent twice, and only sent items are
received. -/
theorem conservation (st : PipelineStages) (s : PipeSt)
    (hreach : (PipeSt.init st).Reachable s)
    (hok : s.grinders.pc ≠ SchedPc.crashed ∧ s.brewers.pc ≠ SchedPc.crashed) (a : Nat) :
    s.places.count a =
      (if a ∈ s.pushed.map BeansPtr.addr ∧ a ∉ s.popped.map BeansPtr.addr then 1 else 0) ∧
    (s.pushed.map BeansPtr.addr).count a ≤ 1 ∧
    (s.popped.map BeansPtr.addr).count a ≤ (s.pushed.map BeansPtr.addr).count a := by
  have h0 : (∀ a, (PipeSt.init st).places.count a +
      ((PipeSt.init st).popped.map BeansPtr.addr).count a =
        ((PipeSt.init st).pushed.map BeansPtr.addr).count a) ∧
      ((PipeSt.init st).pushed.map BeansPtr.addr).Nodup := by
    constructor
    · intro a
      simp [PipeSt.places, PipeSt.init, poolSt_init_held, Channel.make]
    · simp [PipeSt.init]
  obtain ⟨hbal, hnd⟩ := pipeSt_reachable_balance hreach hok h0
  have hle : (s.pushed.map BeansPtr.addr).count a ≤ 1 := List.nodup_iff_count_le_one.mp hnd a
  have hb := hbal a
  refine ⟨?_, hle, by omega⟩
  by_cases hin : a ∈ s.pushed.map BeansPtr.addr
  · have hpos : 0 < (s.pushed.map BeansPtr.addr).count a := List.count_pos_iff.mpr hin
    by_cases hout : a ∈ s.popped.map BeansPtr.addr
    · have hpos2 : 0 < (s.popped.map BeansPtr.addr).count a := List.count_pos_iff.mpr hout
      rw [if_neg (by simp only [not_and, not_not]; exact fun _ => hout)]
      omega
    · have hz : (s.popped.map BeansPtr.addr).count a = 0 := List.count_eq_zero.mpr hout
      rw [if_pos ⟨hin, hout⟩]
      omega
  · have hz : (s.pushed.map BeansPtr.addr).count a = 0 := List.count_eq_zero.mpr hin
    rw [if_neg (fun h => hin h.1)]
    omega

/-- C5 at a concrete state: of the two items sent in, the one at address 1 is still in the
pipeline. -/
theorem conservation_witness :
    pipelineState.places.count 1 =
      (if 1 ∈ pipelineState.pushed.map BeansPtr.addr ∧
          1 ∉ pipelineState.popped.map BeansPtr.addr then 1 else 0) ∧
    (pipelineState.pushed.map BeansPtr.addr).count 1 ≤ 1 ∧
    (pipelineState.popped.map BeansPtr.addr).count 1 ≤
      (pipelineState.pushed.map BeansPtr.addr).count 1 :=
  conservation fastestStages pipelineState pipelineState_reachable (by decide) 1

/-! ## The general theorems at concrete inputs -/

/-- C2 on a pool of two workers, at the state `roundRobinSchedule` leads to: items 0, 1, 2
were taken and sent to workers 0, 1, 0, and item 2 still sits in the private channel of
worker 0; together with everything the general theorem says about that state and pool. -/
theorem round_robin_determinism_witness :
    (roundRobinState.pool.taken = [rawBeans 0, rawBeans 1, rawBeans 2] ∧
      roundRobinState.pool.handed = [(0, rawBeans 0), (1, rawBeans 1), (0, rawBeans 2)] ∧
      (roundRobinState.pool.workers.map fun w => w.queue.buf) = [[rawBeans 2], [rawBeans 1]]) ∧
    (PoolSys.init (pushPool .PushRoundRobin) 100 100).pool.cursor = 0 ∧
    roundRobinState.pool.cursor < (pushPool .PushRoundRobin).workers.length ∧
    roundRobinState.pool.workers.length = (pushPool .PushRoundRobin).workers.length ∧
    roundRobinState.pool.pc ≠ SchedPc.crashed ∧
    roundRobinState.pool.handed.length ≤ roundRobinState.pool.taken.length ∧
    roundRobinState.pool.taken.length ≤ roundRobinState.pool.handed.length + 1 ∧
    (∀ i w b, roundRobinState.pool.handed[i]? = some (w, b) →
      w = i % (pushPool .PushRoundRobin).workers.length ∧
        roundRobinState.pool.taken[i]? = some b) ∧
    (∀ (j : Nat) (w : WorkerSt), roundRobinState.pool.workers[j]? = some w →
      ∃ earlier : List BeansPtr,
        (roundRobinState.pool.handed.filter fun e => e.1 = j).map Prod.snd =
          earlier ++ w.queue.buf) ∧
    ((roundRobinState.step PoolAct.sched).isSome = true ∨
      (roundRobinState.pool.pc = SchedPc.recv ∧ roundRobinState.input.buf = []) ∨
      ∃ b i w, roundRobinState.pool.pc = SchedPc.send b i ∧
        roundRobinState.pool.workers[i]? = some w ∧ w.queue.cap ≤ w.queue.buf.length) ∧
    (1 ≤ 100 → 1 ≤ 100 → ∀ (items : List BeansPtr) (b : BeansPtr),
      ∃ (s1 : PoolSys) (w : WorkerSt),
        (PoolSys.init (pushPool .PushRoundRobin) 100 100).Reachable s1 ∧
        s1.pool.taken = items ++ [b] ∧
        s1.pool.handed = roundRobinPlan (pushPool .PushRoundRobin).workers.length (items ++ [b]) ∧
        s1.pool.workers[items.length % (pushPool .PushRoundRobin).workers.length]? = some w ∧
        w.queue.buf = [b]) :=
  ⟨⟨rfl, rfl, rfl⟩,
    round_robin_determinism (pushPool .PushRoundRobin) 100 100 rfl (by decide) roundRobinState
      roundRobinState_reachable⟩

/-- C4 (amended) at the state reached by `fastestSchedule`. -/
theorem busy_flag_consistency_witness :
    (SchedulingStrategy.PushFastestAvailable = SchedulingStrategy.PushFastestAvailable →
      ∀ (i : Nat) (w : WorkerSt), fastestState.pool.workers[i]? = some w →
        (w.queue.buf ≠ [] ∨ (∃ b, w.pc = WorkPc.call b) ∨ (∃ b, w.pc = WorkPc.send b)) →
        w.worker.busy = true) ∧
    ∀ (i : Nat) (w : WorkerSt), fastestState.pool.workers[i]? = some w →
      w.worker.busy = true →
      (∃ b, fastestState.pool.pc = SchedPc.send b i) ∨ w.queue.buf ≠ [] ∨
        (∃ b, w.pc = WorkPc.call b) ∨ (∃ b, w.pc = WorkPc.send b) ∨ w.pc = WorkPc.clear :=
  (pushPool_new .PushFastestAvailable (by decide)).elim fun _ hnew =>
    busy_flag_consistency _ _ _ _ _ _ _ _ hnew 100 100 fastestState fastestState_reachable

/-- C10 on a pool whose only idle worker has throughput 0: the call returns `nil` at once. -/
theorem selection_when_idle_witness :
    ∃ r, fastestAvailableWorker (stalledWorkers :: []) = some (r, 0) ∧
      (r = none ↔ ∀ w ∈ stalledWorkers, w.busy = false → w.throughput ≤ 0) ∧
      (∀ i, r = some i →
        ∃ w, stalledWorkers[i]? = some w ∧ w.busy = false ∧ 0 < w.throughput) ∧
      ∀ (p : PoolSt) (beans : BeansPtr) (input : Channel),
        p.strategy = SchedulingStrategy.PushFastestAvailable → p.pc = SchedPc.pick beans →
        p.structs = stalledWorkers →
        p.schedStep input = some (input, { p with pc := SchedPc.mark beans r }) ∧
        (r = none →
          PoolSt.schedStep { p with pc := SchedPc.mark beans r } input =
            some (input, { p with pc := SchedPc.crashed })) :=
  selection_when_idle stalledWorkers [] ⟨_, List.mem_cons_self _ _, rfl⟩

/-- The result of that call, evaluated: `nil`, without sleeping. -/
theorem stalledWorkers_nil : fastestAvailableWorker (stalledWorkers :: []) = some (none, 0) :=
  rfl

/-- The books of the pipeline schedule, read off the state: addresses 0 and 1 were sent in,
address 0 was received from the output, address 1 is in exactly one place. -/
theorem pipelineState_places :
    pipelineState.pushed.map BeansPtr.addr = [0, 1] ∧
    pipelineState.popped.map BeansPtr.addr = [0] ∧ pipelineState.places = [1] := by
  decide


end BeReal
